import Mathlib

/-!
Shallow embedding of `src/cyclic_list.rs` (the `CyclicList<T>` cursor-based
cyclic doubly-linked list) and verification of its specification.

The Rust code heap-allocates `Node<T>` values individually and links them
through raw `NonNull` pointers.  We model the allocator as an arena
`Heap α := List (Option (Node α))`: the address of a node is its index in the
list, a freed slot holds `none`, and allocation appends a fresh slot at the
end.  Every Rust statement that reads or writes a pointer field is translated
to an explicit read or write on this arena, in the same order as in the
source, so pointer aliasing (e.g. `self.right == self` in a one-element ring)
behaves exactly as it does in the Rust code.
-/

namespace AocCyclic

/-- Mirrors `struct Node<T> { left: NonNull<Node<T>>, right: NonNull<Node<T>>, element: T }`.
Pointers become arena addresses (`Nat`). -/
structure Node (α : Type) where
  left : Nat
  right : Nat
  element : α
deriving DecidableEq, Repr

/-- The allocator arena: index = address, `none` = freed slot. -/
abbrev Heap (α : Type) := List (Option (Node α))

/-- Read the node stored at address `a` (`none` if the slot is freed or
out of range, which never happens on the defined executions of the source). -/
def read (h : Heap α) (a : Nat) : Option (Node α) :=
  List.getD h a none

/-- Overwrite the `left` field of the node at address `a`
(models `(*a).left = v`).  A write through a dangling pointer is undefined
behaviour in the source; we model it as a no-op (it is never reached from a
valid state). -/
def setLeft (h : Heap α) (a v : Nat) : Heap α :=
  match read h a with
  | some nd => List.set h a (some { nd with left := v })
  | none => h

/-- Overwrite the `right` field of the node at address `a`
(models `(*a).right = v`). -/
def setRight (h : Heap α) (a v : Nat) : Heap α :=
  match read h a with
  | some nd => List.set h a (some { nd with right := v })
  | none => h

/-- Overwrite the element of the node at address `a`
(models `*node.current_mut() = v`). -/
def setElem (h : Heap α) (a : Nat) (v : α) : Heap α :=
  match read h a with
  | some nd => List.set h a (some { nd with element := v })
  | none => h

/-- Deallocate the node at address `a` (models `Box::from_raw` being dropped). -/
def free (h : Heap α) (a : Nat) : Heap α :=
  List.set h a none

/-- Mirrors `Node::new`: allocate a fresh node and make it self-linked
(`ret.right = ret; ret.left = ret`).  Returns the new heap and the address. -/
def alloc (h : Heap α) (el : α) : Heap α × Nat :=
  (h ++ [some ⟨List.length h, List.length h, el⟩], List.length h)

/-- The `right` pointer of the node at `a` (never dangling on defined paths;
dangling reads default to `a` itself, which is never reached from a valid
state). -/
def rightOf (h : Heap α) (a : Nat) : Nat :=
  match read h a with
  | some nd => nd.right
  | none => a

/-- The `left` pointer of the node at `a`. -/
def leftOf (h : Heap α) (a : Nat) : Nat :=
  match read h a with
  | some nd => nd.left
  | none => a

/-- The element of the node at `a`. -/
def elemAt (h : Heap α) (a : Nat) : Option α :=
  Option.map Node.element (read h a)

/-- Number of live (not-freed) nodes in the arena. -/
def liveCount (h : Heap α) : Nat :=
  List.countP Option.isSome h

/-- Mirrors `Node::push_right`:
```
let mut node = Self::new(element);
self.right.as_mut().left = node;
node.as_mut().right = self.right;
node.as_mut().left = NonNull::new(self).unwrap();
self.right = node;
```
Each statement re-reads the pointer fields from the heap produced by the
previous statement, exactly as the Rust borrow of memory does. -/
def nodePushRight (h : Heap α) (s : Nat) (el : α) : Heap α :=
  let h1 := (alloc h el).1
  let node := (alloc h el).2
  let h2 := setLeft h1 (rightOf h1 s) node
  let h3 := setRight h2 node (rightOf h2 s)
  let h4 := setLeft h3 node s
  setRight h4 s node

/-- Mirrors `Node::pop_right`:
```
let ret = self.right.as_mut();
ret.right.as_mut().left = ret.left;
ret.left.as_mut().right = ret.right;
let ret = Box::from_raw(ret as *mut Self);
ret.into_element()
```
-/
def nodePopRight (h : Heap α) (s : Nat) : Heap α × Option α :=
  let r := rightOf h s
  let h1 := setLeft h (rightOf h r) (leftOf h r)
  let h2 := setRight h1 (leftOf h1 r) (rightOf h1 r)
  (free h2 r, elemAt h2 r)

/-- Mirrors `Node::push_left` (the left/right mirror image of `push_right`):
```
let mut node = Self::new(element);
self.left.as_mut().right = node;
node.as_mut().left = self.left;
node.as_mut().right = NonNull::new(self).unwrap();
self.left = node;
```
-/
def nodePushLeft (h : Heap α) (s : Nat) (el : α) : Heap α :=
  let h1 := (alloc h el).1
  let node := (alloc h el).2
  let h2 := setRight h1 (leftOf h1 s) node
  let h3 := setLeft h2 node (leftOf h2 s)
  let h4 := setRight h3 node s
  setLeft h4 s node

/-- Mirrors `Node::pop_left`:
```
let ret = self.left.as_mut();
ret.left.as_mut().right = ret.right;
ret.right.as_mut().left = ret.left;
let ret = Box::from_raw(ret as *mut Self);
ret.into_element()
```
-/
def nodePopLeft (h : Heap α) (s : Nat) : Heap α × Option α :=
  let r := leftOf h s
  let h1 := setRight h (leftOf h r) (rightOf h r)
  let h2 := setLeft h1 (rightOf h1 r) (leftOf h1 r)
  (free h2 r, elemAt h2 r)

/-- Mirrors `struct CyclicList<T> { nodes: Option<NonNull<Node<T>>>, len: usize }`. -/
structure CyclicList (α : Type) where
  nodes : Option Nat
  len : Nat
deriving DecidableEq, Repr

/-- Mirrors `CyclicList::new`. -/
def CyclicList.new : CyclicList α :=
  { nodes := none, len := 0 }

/-- Mirrors `CyclicList::is_empty`: `self.nodes.is_none()`. -/
def isEmpty (l : CyclicList α) : Bool :=
  l.nodes.isNone

/-- Mirrors `CyclicList::current`: `self.nodes.map(|node| node.as_ref().current())`.
On defined executions the inner read always succeeds, so the `bind` returns
`some` exactly when `nodes` is `some`. -/
def current (h : Heap α) (l : CyclicList α) : Option α :=
  Option.bind l.nodes (elemAt h)

/-- Mirrors `CyclicList::right`: the element of the right neighbour of current. -/
def rightVal (h : Heap α) (l : CyclicList α) : Option α :=
  Option.bind l.nodes (fun a => elemAt h (rightOf h a))

/-- Mirrors `CyclicList::left`: the element of the left neighbour of current. -/
def leftVal (h : Heap α) (l : CyclicList α) : Option α :=
  Option.bind l.nodes (fun a => elemAt h (leftOf h a))

/-- Mirrors `*self.current_mut().unwrap() = v` (writing through `current_mut`). -/
def currentMutSet (h : Heap α) (l : CyclicList α) (v : α) : Heap α :=
  match l.nodes with
  | some a => setElem h a v
  | none => h

/-- Mirrors `CyclicList::push_right`. -/
def pushRight (h : Heap α) (l : CyclicList α) (el : α) : Heap α × CyclicList α :=
  match l.nodes with
  | some cur => (nodePushRight h cur el, { l with len := l.len + 1 })
  | none => ((alloc h el).1, { nodes := some (alloc h el).2, len := l.len + 1 })

/-- Mirrors `CyclicList::push_left`. -/
def pushLeft (h : Heap α) (l : CyclicList α) (el : α) : Heap α × CyclicList α :=
  match l.nodes with
  | some cur => (nodePushLeft h cur el, { l with len := l.len + 1 })
  | none => ((alloc h el).1, { nodes := some (alloc h el).2, len := l.len + 1 })

/-- Mirrors `CyclicList::move_right`: `self.nodes = self.nodes.map(|n| n.right)`.
The heap is untouched. -/
def moveRight (h : Heap α) (l : CyclicList α) : CyclicList α :=
  { l with nodes := Option.map (rightOf h) l.nodes }

/-- Mirrors `CyclicList::move_left`. -/
def moveLeft (h : Heap α) (l : CyclicList α) : CyclicList α :=
  { l with nodes := Option.map (leftOf h) l.nodes }

/-- Mirrors `CyclicList::move_right_n`: apply `move_right` `n` times. -/
def moveRightN (h : Heap α) (l : CyclicList α) : Nat → CyclicList α
  | 0 => l
  | n + 1 => moveRight h (moveRightN h l n)

/-- Mirrors `CyclicList::move_left_n`. -/
def moveLeftN (h : Heap α) (l : CyclicList α) : Nat → CyclicList α
  | 0 => l
  | n + 1 => moveLeft h (moveLeftN h l n)

/-- Mirrors `CyclicList::into_right` (consuming variant of one right move). -/
def intoRight (h : Heap α) (l : CyclicList α) : CyclicList α :=
  moveRight h l

/-- Mirrors `CyclicList::into_left`. -/
def intoLeft (h : Heap α) (l : CyclicList α) : CyclicList α :=
  moveLeft h l

/-- Mirrors `CyclicList::into_right_n`: fold of `into_right`. -/
def intoRightN (h : Heap α) (l : CyclicList α) (n : Nat) : CyclicList α :=
  List.foldl (fun acc _ => intoRight h acc) l (List.range n)

/-- Mirrors `CyclicList::into_left_n`. -/
def intoLeftN (h : Heap α) (l : CyclicList α) (n : Nat) : CyclicList α :=
  List.foldl (fun acc _ => intoLeft h acc) l (List.range n)

/-- Mirrors `CyclicList::push_move_right`: `push_right` then `move_right`. -/
def pushMoveRight (h : Heap α) (l : CyclicList α) (el : α) : Heap α × CyclicList α :=
  let p := pushRight h l el
  (p.1, moveRight p.1 p.2)

/-- Mirrors `CyclicList::push_move_left`. -/
def pushMoveLeft (h : Heap α) (l : CyclicList α) (el : α) : Heap α × CyclicList α :=
  let p := pushLeft h l el
  (p.1, moveLeft p.1 p.2)

/-- Mirrors `CyclicList::push_into_right`: `push_right` then `into_right`. -/
def pushIntoRight (h : Heap α) (l : CyclicList α) (el : α) : Heap α × CyclicList α :=
  let p := pushRight h l el
  (p.1, intoRight p.1 p.2)

/-- Mirrors `CyclicList::push_into_left`. -/
def pushIntoLeft (h : Heap α) (l : CyclicList α) (el : α) : Heap α × CyclicList α :=
  let p := pushLeft h l el
  (p.1, intoLeft p.1 p.2)

/-- Mirrors `CyclicList::pop_right`:
```
if let Some(mut node) = self.nodes {
    self.len = self.len.saturating_sub(1);
    let ret = unsafe { Some(node.as_mut().pop_right()) };
    if self.len == 0 { self.nodes = None; }
    ret
} else { None }
```
(`saturating_sub` is `Nat` subtraction.) -/
def popRight (h : Heap α) (l : CyclicList α) : Heap α × CyclicList α × Option α :=
  match l.nodes with
  | some node =>
      let len1 := l.len - 1
      let p := nodePopRight h node
      (p.1, { nodes := if len1 = 0 then none else some node, len := len1 }, p.2)
  | none => (h, l, none)

/-- Mirrors `CyclicList::pop_left`. -/
def popLeft (h : Heap α) (l : CyclicList α) : Heap α × CyclicList α × Option α :=
  match l.nodes with
  | some node =>
      let len1 := l.len - 1
      let p := nodePopLeft h node
      (p.1, { nodes := if len1 = 0 then none else some node, len := len1 }, p.2)
  | none => (h, l, none)

/-- Mirrors `CyclicList::pop_move_right`: `self.move_right(); self.pop_left()`. -/
def popMoveRight (h : Heap α) (l : CyclicList α) : Heap α × CyclicList α × Option α :=
  popLeft h (moveRight h l)

/-- Mirrors `CyclicList::pop_move_left`: `self.move_left(); self.pop_right()`. -/
def popMoveLeft (h : Heap α) (l : CyclicList α) : Heap α × CyclicList α × Option α :=
  popRight h (moveLeft h l)

/-- Mirrors `FromIterator::from_iter`:
`iter.fold(Self::new(), |list, el| list.push_into_right(el)).into_right()`,
starting from an empty arena. -/
def fromList (xs : List α) : Heap α × CyclicList α :=
  let p := List.foldl (fun p el => pushIntoRight p.1 p.2 el) ([], CyclicList.new) xs
  (p.1, intoRight p.1 p.2)

/-- Mirrors the `#[derive(Clone)]` on `CyclicList`: field-wise clone.
`Option<NonNull<_>>` clones the pointer value itself, so the clone refers to
the very same nodes in the arena — no node is copied or newly allocated. -/
def clone (l : CyclicList α) : CyclicList α :=
  { nodes := l.nodes, len := l.len }

/-- Mirrors dropping a `CyclicList`: the source defines no `Drop`
implementation, and the fields `Option<NonNull<Node<T>>>` and `usize` have no
drop glue of their own, so dropping the list deallocates nothing — the arena
is unchanged. -/
def dropList (h : Heap α) (_l : CyclicList α) : Heap α :=
  h

/-- Mirrors `struct Iter<'a, T> { list: CyclicList<T>, consumed: usize, ... }`. -/
structure Iter (α : Type) where
  list : CyclicList α
  consumed : Nat
deriving DecidableEq, Repr

/-- Modelled from the spec: the source declares `struct Iter` with its
`Iterator` implementation but contains no constructor for it; per the spec
(§4.1 Iteration) the borrowing iterator starts from a working copy of the
list (a field-wise clone) with nothing consumed yet. -/
def CyclicList.iter (l : CyclicList α) : Iter α :=
  { list := clone l, consumed := 0 }

/-- Mirrors `Iter::next`:
```
if self.consumed == self.list.len() { None }
else { self.consumed += 1; self.list.move_right(); self.list.current() }
```
The borrowing iterator never mutates the heap. -/
def iterNext (h : Heap α) (it : Iter α) : Iter α × Option α :=
  if it.consumed = it.list.len then (it, none)
  else
    let it1 : Iter α := { list := moveRight h it.list, consumed := it.consumed + 1 }
    (it1, current h it1.list)

/-- Mirrors `Iter::size_hint`: `(self.list.len(), Some(self.list.len()))`.
Note that it does not subtract `consumed`. -/
def iterSizeHint (it : Iter α) : Nat × Option Nat :=
  (it.list.len, some it.list.len)

/-- Mirrors `struct IntoIter<T> { list: CyclicList<T> }` and
`CyclicList::into_iter`. -/
structure IntoIter (α : Type) where
  list : CyclicList α
deriving DecidableEq, Repr

/-- Mirrors `IntoIter::next`: `self.list.pop_move_right()`. -/
def intoIterNext (h : Heap α) (it : IntoIter α) : Heap α × IntoIter α × Option α :=
  let p := popMoveRight h it.list
  (p.1, { list := p.2.1 }, p.2.2)

/-- Mirrors `IntoIter::size_hint`. -/
def intoIterSizeHint (it : IntoIter α) : Nat × Option Nat :=
  (it.list.len, some it.list.len)

/-! ### Basic facts about arena reads and writes -/

theorem read_lt_length {h : Heap α} {a : Nat} {nd : Node α}
    (hr : read h a = some nd) : a < List.length h := by
  by_contra hlt
  have : h[a]? = none := List.getElem?_eq_none (by omega)
  simp [read, List.getD, this] at hr

theorem read_set_self {h : Heap α} {a : Nat} (ha : a < List.length h)
    (x : Option (Node α)) : read (List.set h a x) a = x := by
  simp [read, List.getD, List.getElem?_set_eq_of_lt _ ha]

theorem read_set_ne {h : Heap α} {a b : Nat} (hne : b ≠ a)
    (x : Option (Node α)) : read (List.set h a x) b = read h b := by
  simp [read, List.getD, List.getElem?_set_ne (fun e => hne e.symm)]

theorem length_setLeft (h : Heap α) (a v : Nat) :
    List.length (setLeft h a v) = List.length h := by
  unfold setLeft; cases read h a <;> simp

theorem length_setRight (h : Heap α) (a v : Nat) :
    List.length (setRight h a v) = List.length h := by
  unfold setRight; cases read h a <;> simp

theorem read_setLeft_self {h : Heap α} {a : Nat} {nd : Node α}
    (hr : read h a = some nd) (v : Nat) :
    read (setLeft h a v) a = some { nd with left := v } := by
  unfold setLeft; rw [hr]; exact read_set_self (read_lt_length hr) _

theorem read_setLeft_ne {h : Heap α} {a b : Nat} (hne : b ≠ a) (v : Nat) :
    read (setLeft h a v) b = read h b := by
  unfold setLeft; cases read h a <;> simp [read_set_ne hne]

theorem read_setRight_self {h : Heap α} {a : Nat} {nd : Node α}
    (hr : read h a = some nd) (v : Nat) :
    read (setRight h a v) a = some { nd with right := v } := by
  unfold setRight; rw [hr]; exact read_set_self (read_lt_length hr) _

theorem read_setRight_ne {h : Heap α} {a b : Nat} (hne : b ≠ a) (v : Nat) :
    read (setRight h a v) b = read h b := by
  unfold setRight; cases read h a <;> simp [read_set_ne hne]

theorem read_setElem_ne {h : Heap α} {a b : Nat} (hne : b ≠ a) (v : α) :
    read (setElem h a v) b = read h b := by
  unfold setElem; cases read h a <;> simp [read_set_ne hne]

theorem read_free_ne {h : Heap α} {a b : Nat} (hne : b ≠ a) :
    read (free h a) b = read h b := by
  unfold free; exact read_set_ne hne _

theorem read_free_self (h : Heap α) (a : Nat) : read (free h a) a = none := by
  by_cases ha : a < List.length h
  · exact read_set_self ha _
  · unfold free
    rw [List.set_eq_of_length_le (by omega)]
    simp [read, List.getD, List.getElem?_eq_none (show List.length h ≤ a by omega)]

theorem read_alloc_lt {h : Heap α} {a : Nat} (ha : a < List.length h) (el : α) :
    read (alloc h el).1 a = read h a := by
  simp [alloc, read, List.getD, List.getElem?_append_left ha]

theorem read_alloc_self (h : Heap α) (el : α) :
    read (alloc h el).1 (List.length h) =
      some ⟨List.length h, List.length h, el⟩ := by
  simp [alloc, read, List.getD]

theorem rightOf_eq {h : Heap α} {a : Nat} {nd : Node α}
    (hr : read h a = some nd) : rightOf h a = nd.right := by
  unfold rightOf; rw [hr]

theorem leftOf_eq {h : Heap α} {a : Nat} {nd : Node α}
    (hr : read h a = some nd) : leftOf h a = nd.left := by
  unfold leftOf; rw [hr]

theorem elemAt_eq {h : Heap α} {a : Nat} {nd : Node α}
    (hr : read h a = some nd) : elemAt h a = some nd.element := by
  unfold elemAt; rw [hr]; rfl

/-! ### The ring representation invariant

`Seg h la xs ra` says: the nodes listed in `xs` (as address–element pairs)
form a doubly-linked chain in arena `h`; the first node's `left` pointer is
`la`, consecutive nodes point at each other, and the last node's `right`
pointer is `ra`.  `RingRep h xs` closes the chain into a ring.  `Ring h l xs`
additionally ties the chain to the `CyclicList` header: distinct addresses,
accurate length, and the cursor on the first listed node. -/

/-- First address of a chain, with default `d` for the empty chain. -/
def headAddr : List (Nat × α) → Nat → Nat
  | [], d => d
  | (a, _) :: _, _ => a

/-- Last address of a chain, with default `d` for the empty chain. -/
def lastAddr : List (Nat × α) → Nat → Nat
  | [], d => d
  | (a, _) :: rest, _ => lastAddr rest a

/-- Doubly-linked chain predicate (see the section header). -/
def Seg (h : Heap α) : Nat → List (Nat × α) → Nat → Prop
  | _, [], _ => True
  | la, (a, e) :: rest, ra =>
      read h a = some ⟨la, headAddr rest ra, e⟩ ∧ Seg h a rest ra

/-- The chain `xs`, closed into a ring inside arena `h`. -/
def RingRep (h : Heap α) (xs : List (Nat × α)) : Prop :=
  Seg h (lastAddr xs 0) xs (headAddr xs 0)

/-- Addresses of a chain. -/
def addrs (xs : List (Nat × α)) : List Nat := List.map Prod.fst xs

/-- Element values of a chain, in clockwise order. -/
def elems (xs : List (Nat × α)) : List α := List.map Prod.snd xs

/-- Full representation invariant of a `CyclicList` header `l` over arena `h`:
`xs` lists the ring's nodes clockwise starting at the cursor. -/
def Ring (h : Heap α) (l : CyclicList α) (xs : List (Nat × α)) : Prop :=
  List.Nodup (addrs xs) ∧ l.len = xs.length ∧
    l.nodes = List.head? (addrs xs) ∧ RingRep h xs

/-- A list state is valid when some chain represents it. -/
def Valid (h : Heap α) (l : CyclicList α) : Prop :=
  ∃ xs, Ring h l xs

/-- `Seg` is decidable (used to check concrete witnesses by evaluation). -/
def decSeg [DecidableEq α] (h : Heap α) :
    (la : Nat) → (xs : List (Nat × α)) → (ra : Nat) → Decidable (Seg h la xs ra)
  | _, [], _ => Decidable.isTrue trivial
  | la, (a, e) :: rest, ra =>
      have : Decidable (Seg h a rest ra) := decSeg h a rest ra
      inferInstanceAs (Decidable (_ ∧ _))

instance [DecidableEq α] (h : Heap α) (la ra : Nat) (xs : List (Nat × α)) :
    Decidable (Seg h la xs ra) := decSeg h la xs ra

instance [DecidableEq α] (h : Heap α) (xs : List (Nat × α)) :
    Decidable (RingRep h xs) := inferInstanceAs (Decidable (Seg _ _ _ _))

instance [DecidableEq α] (h : Heap α) (l : CyclicList α) (xs : List (Nat × α)) :
    Decidable (Ring h l xs) := inferInstanceAs (Decidable (_ ∧ _ ∧ _ ∧ _))

theorem headAddr_append (xs ys : List (Nat × α)) (d : Nat) :
    headAddr (xs ++ ys) d = headAddr xs (headAddr ys d) := by
  cases xs with
  | nil => rfl
  | cons x rest => rfl

theorem lastAddr_append (xs ys : List (Nat × α)) (d : Nat) :
    lastAddr (xs ++ ys) d = lastAddr ys (lastAddr xs d) := by
  induction xs generalizing d with
  | nil => rfl
  | cons x rest ih => exact ih x.1

theorem lastAddr_ne_nil {xs : List (Nat × α)} (hne : xs ≠ []) (d d' : Nat) :
    lastAddr xs d = lastAddr xs d' := by
  cases xs with
  | nil => exact absurd rfl hne
  | cons x rest => rfl

theorem Seg_congr {h h' : Heap α} {la ra : Nat} {xs : List (Nat × α)}
    (hrd : ∀ p ∈ xs, read h' p.1 = read h p.1) (hs : Seg h la xs ra) :
    Seg h' la xs ra := by
  induction xs generalizing la with
  | nil => trivial
  | cons x rest ih =>
      obtain ⟨a, e⟩ := x
      obtain ⟨hx, hrest⟩ := hs
      refine ⟨?_, ih (fun p hp => hrd p (List.mem_cons_of_mem _ hp)) hrest⟩
      rw [hrd (a, e) (List.mem_cons_self _ _)]
      exact hx

theorem Seg_append {h : Heap α} {la ra : Nat} {xs ys : List (Nat × α)} :
    Seg h la (xs ++ ys) ra ↔
      Seg h la xs (headAddr ys ra) ∧ Seg h (lastAddr xs la) ys ra := by
  induction xs generalizing la with
  | nil => simp [Seg, lastAddr]
  | cons x rest ih =>
      obtain ⟨a, e⟩ := x
      show (read h a = some ⟨la, headAddr (rest ++ ys) ra, e⟩ ∧
          Seg h a (rest ++ ys) ra) ↔ _
      rw [headAddr_append, ih]
      constructor
      · rintro ⟨h1, h2, h3⟩; exact ⟨⟨h1, h2⟩, h3⟩
      · rintro ⟨⟨h1, h2⟩, h3⟩; exact ⟨h1, h2, h3⟩

theorem seg_read_mem {h : Heap α} {la ra : Nat} {xs : List (Nat × α)}
    (hs : Seg h la xs ra) : ∀ p ∈ xs, ∃ nd : Node α,
      read h p.1 = some nd ∧ nd.element = p.2 := by
  induction xs generalizing la with
  | nil => intro p hp; cases hp
  | cons x rest ih =>
      obtain ⟨a, e⟩ := x
      obtain ⟨hx, hrest⟩ := hs
      intro p hp
      rcases List.mem_cons.mp hp with hp | hp
      · subst hp; exact ⟨_, hx, rfl⟩
      · exact ih hrest p hp

theorem seg_addr_lt {h : Heap α} {la ra : Nat} {xs : List (Nat × α)}
    (hs : Seg h la xs ra) : ∀ a ∈ addrs xs, a < List.length h := by
  intro a ha
  obtain ⟨⟨a', e⟩, hmem, rfl⟩ := List.mem_map.mp ha
  obtain ⟨nd, hrd, _⟩ := seg_read_mem hs _ hmem
  exact read_lt_length hrd

theorem ringRep_rotate1 {h : Heap α} {x : Nat × α} {rest : List (Nat × α)}
    (hr : RingRep h (x :: rest)) : RingRep h (rest ++ [x]) := by
  obtain ⟨a, e⟩ := x
  obtain ⟨hx, hrest⟩ := hr
  show Seg h (lastAddr (rest ++ [(a, e)]) 0) (rest ++ [(a, e)])
      (headAddr (rest ++ [(a, e)]) 0)
  rw [lastAddr_append, headAddr_append]
  show Seg h a (rest ++ [(a, e)]) (headAddr rest a)
  rw [Seg_append]
  constructor
  · exact hrest
  · refine ⟨?_, trivial⟩
    show read h a = some ⟨lastAddr rest a, headAddr rest a, e⟩
    exact hx

theorem ringRep_unrotate1 {h : Heap α} {z : Nat × α} {ys : List (Nat × α)}
    (hr : RingRep h (ys ++ [z])) : RingRep h (z :: ys) := by
  obtain ⟨a, e⟩ := z
  unfold RingRep at hr
  rw [lastAddr_append, headAddr_append] at hr
  rw [Seg_append] at hr
  obtain ⟨hys, hz, -⟩ := hr
  show Seg h (lastAddr ys a) ((a, e) :: ys) (headAddr ((a, e) :: ys) 0)
  refine ⟨?_, ?_⟩
  · show read h a = some ⟨lastAddr ys a, headAddr ys a, e⟩
    exact hz
  · exact hys

theorem ringRep_rotate {h : Heap α} {xs : List (Nat × α)}
    (hr : RingRep h xs) : ∀ k, RingRep h (xs.rotate k) := by
  intro k
  induction k generalizing xs with
  | zero => simpa [List.rotate_zero] using hr
  | succ k ih =>
      cases xs with
      | nil => simpa [List.rotate_nil] using hr
      | cons x rest =>
          rw [List.rotate_cons_succ]
          exact ih (ringRep_rotate1 hr)

/-! ### The left/right mirror symmetry

`Node::push_left`, `pop_left`, `move_left` are the literal mirror images of
their right-hand counterparts.  Flipping every `left`/`right` field of the
arena turns one family into the other, so each left-hand effect lemma can be
derived from the right-hand one. -/

/-- Swap the two pointer fields of a node. -/
def flipNode (nd : Node α) : Node α := ⟨nd.right, nd.left, nd.element⟩

/-- Swap the two pointer fields of every node of the arena. -/
def flip (h : Heap α) : Heap α := List.map (Option.map flipNode) h

theorem flipNode_flipNode (nd : Node α) : flipNode (flipNode nd) = nd := rfl

theorem read_flip (h : Heap α) (a : Nat) :
    read (flip h) a = Option.map flipNode (read h a) := by
  unfold flip read
  rcases hx : h[a]? with - | x
  · simp [List.getD, hx]
  · simp [List.getD, hx]

theorem length_flip (h : Heap α) : List.length (flip h) = List.length h := by
  simp [flip]

theorem flip_flip (h : Heap α) : flip (flip h) = h := by
  induction h with
  | nil => rfl
  | cons o t ih =>
      cases o with
      | none => simpa [flip] using ih
      | some nd => simpa [flip, flipNode] using ih

theorem flip_set (h : Heap α) (a : Nat) (x : Option (Node α)) :
    flip (List.set h a x) = List.set (flip h) a (Option.map flipNode x) := by
  induction h generalizing a with
  | nil => rfl
  | cons o t ih =>
      cases a with
      | zero => rfl
      | succ a => simpa [flip] using ih a

theorem setLeft_flip (h : Heap α) (a v : Nat) :
    setLeft (flip h) a v = flip (setRight h a v) := by
  unfold setLeft setRight
  rw [read_flip]
  rcases hx : read h a with - | nd
  · simp
  · simp [flip_set, flipNode]

theorem setRight_flip (h : Heap α) (a v : Nat) :
    setRight (flip h) a v = flip (setLeft h a v) := by
  unfold setLeft setRight
  rw [read_flip]
  rcases hx : read h a with - | nd
  · simp
  · simp [flip_set, flipNode]

theorem setElem_flip (h : Heap α) (a : Nat) (v : α) :
    setElem (flip h) a v = flip (setElem h a v) := by
  unfold setElem
  rw [read_flip]
  rcases hx : read h a with - | nd
  · simp
  · simp [flip_set, flipNode]

theorem free_flip (h : Heap α) (a : Nat) :
    free (flip h) a = flip (free h a) := by
  unfold free
  rw [flip_set]
  rfl

theorem alloc_flip (h : Heap α) (el : α) :
    alloc (flip h) el = (flip (alloc h el).1, (alloc h el).2) := by
  simp [alloc, flip, flipNode, length_flip]

theorem rightOf_flip (h : Heap α) (a : Nat) :
    rightOf (flip h) a = leftOf h a := by
  unfold rightOf leftOf
  rw [read_flip]
  rcases read h a with - | nd <;> rfl

theorem leftOf_flip (h : Heap α) (a : Nat) :
    leftOf (flip h) a = rightOf h a := by
  unfold rightOf leftOf
  rw [read_flip]
  rcases read h a with - | nd <;> rfl

theorem elemAt_flip (h : Heap α) (a : Nat) :
    elemAt (flip h) a = elemAt h a := by
  unfold elemAt
  rw [read_flip]
  rcases read h a with - | nd <;> rfl

theorem nodePushRight_flip (h : Heap α) (s : Nat) (el : α) :
    nodePushRight (flip h) s el = flip (nodePushLeft h s el) := by
  unfold nodePushRight nodePushLeft
  simp only [alloc_flip, rightOf_flip, leftOf_flip, setLeft_flip, setRight_flip]

theorem nodePopRight_flip (h : Heap α) (s : Nat) :
    nodePopRight (flip h) s =
      (flip (nodePopLeft h s).1, (nodePopLeft h s).2) := by
  unfold nodePopRight nodePopLeft
  simp only [rightOf_flip, leftOf_flip, setLeft_flip, setRight_flip, free_flip,
    elemAt_flip]

theorem moveLeft_eq_flip (h : Heap α) (l : CyclicList α) :
    moveLeft h l = moveRight (flip h) l := by
  unfold moveLeft moveRight
  rcases l.nodes with - | a <;> simp [rightOf_flip]

theorem pushLeft_eq_flip (h : Heap α) (l : CyclicList α) (el : α) :
    pushLeft h l el =
      (flip (pushRight (flip h) l el).1, (pushRight (flip h) l el).2) := by
  unfold pushLeft pushRight
  rcases l.nodes with - | cur
  · simp [alloc_flip, flip_flip]
  · simp [nodePushRight_flip, flip_flip]

theorem popLeft_eq_flip (h : Heap α) (l : CyclicList α) :
    popLeft h l = (flip (popRight (flip h) l).1, (popRight (flip h) l).2.1,
      (popRight (flip h) l).2.2) := by
  unfold popLeft popRight
  rcases l.nodes with - | node
  · simp [flip_flip]
  · simp [nodePopRight_flip, flip_flip]

theorem headAddr_reverse (xs : List (Nat × α)) (d : Nat) :
    headAddr (List.reverse xs) d = lastAddr xs d := by
  rcases List.eq_nil_or_concat xs with h | ⟨ys, z, h⟩
  · subst h; rfl
  · subst h
    rw [List.concat_eq_append, List.reverse_append, lastAddr_append]
    rfl

theorem lastAddr_reverse (xs : List (Nat × α)) (d : Nat) :
    lastAddr (List.reverse xs) d = headAddr xs d := by
  cases xs with
  | nil => rfl
  | cons x rest =>
      rw [List.reverse_cons, lastAddr_append]
      rfl

theorem Seg_flip {h : Heap α} {la ra : Nat} {xs : List (Nat × α)}
    (hs : Seg h la xs ra) : Seg (flip h) ra (List.reverse xs) la := by
  induction xs generalizing la with
  | nil => trivial
  | cons x rest ih =>
      obtain ⟨a, e⟩ := x
      obtain ⟨hx, hrest⟩ := hs
      rw [List.reverse_cons, Seg_append]
      refine ⟨ih hrest, ?_, trivial⟩
      show read (flip h) a = some ⟨lastAddr (List.reverse rest) ra, la, e⟩
      rw [read_flip, hx, lastAddr_reverse]
      rfl

theorem ring_flip {h : Heap α} {l : CyclicList α} {x : Nat × α}
    {rest : List (Nat × α)} (hr : Ring h l (x :: rest)) :
    Ring (flip h) l (x :: List.reverse rest) := by
  obtain ⟨hnd, hlen, hcur, hrep⟩ := hr
  refine ⟨?_, ?_, ?_, ?_⟩
  · simpa [addrs, List.nodup_reverse] using hnd
  · simpa using hlen
  · simpa [addrs] using hcur
  · have hs : Seg h (lastAddr rest x.1) (x :: rest) x.1 := hrep
    have hflip := Seg_flip hs
    rw [List.reverse_cons] at hflip
    have hrep2 : RingRep (flip h) (List.reverse rest ++ [x]) := by
      show Seg (flip h) (lastAddr (List.reverse rest ++ [x]) 0)
        (List.reverse rest ++ [x]) (headAddr (List.reverse rest ++ [x]) 0)
      rw [lastAddr_append, headAddr_append]
      show Seg (flip h) x.1 (List.reverse rest ++ [x])
        (headAddr (List.reverse rest) x.1)
      rw [headAddr_reverse]
      exact hflip
    exact ringRep_unrotate1 hrep2

/-! ### Effect of each operation on the ring representation -/

theorem ring_nil_elim {h : Heap α} {l : CyclicList α} (hr : Ring h l []) :
    l = CyclicList.new := by
  obtain ⟨-, hlen, hcur, -⟩ := hr
  cases l
  simp only [CyclicList.new]
  simp_all [addrs]

theorem ring_new (h : Heap α) : Ring h (CyclicList.new (α := α)) [] :=
  ⟨List.nodup_nil, rfl, rfl, trivial⟩

theorem ring_head_nodes {h : Heap α} {l : CyclicList α} {x : Nat × α}
    {rest : List (Nat × α)} (hr : Ring h l (x :: rest)) : l.nodes = some x.1 := by
  obtain ⟨-, -, hcur, -⟩ := hr
  simpa [addrs] using hcur

theorem ring_head_read {h : Heap α} {l : CyclicList α} {x : Nat × α}
    {rest : List (Nat × α)} (hr : Ring h l (x :: rest)) :
    read h x.1 = some ⟨lastAddr rest x.1, headAddr rest x.1, x.2⟩ := by
  obtain ⟨-, -, -, hrep⟩ := hr
  obtain ⟨a, e⟩ := x
  exact hrep.1

theorem ring_moveRight {h : Heap α} {l : CyclicList α} {x : Nat × α}
    {rest : List (Nat × α)} (hr : Ring h l (x :: rest)) :
    Ring h (moveRight h l) (rest ++ [x]) := by
  have hnodes := ring_head_nodes hr
  have hread := ring_head_read hr
  obtain ⟨hnd, hlen, hcur, hrep⟩ := hr
  refine ⟨?_, ?_, ?_, ringRep_rotate1 hrep⟩
  · have : addrs (rest ++ [x]) = addrs rest ++ [x.1] := by simp [addrs]
    rw [this]
    exact ((List.perm_append_singleton _ _).nodup_iff).mpr (by simpa [addrs] using hnd)
  · simpa [moveRight] using hlen
  · show (moveRight h l).nodes = _
    simp only [moveRight, hnodes, Option.map_some']
    rw [rightOf_eq hread]
    cases rest with
    | nil => simp [addrs, headAddr]
    | cons r t => simp [addrs, headAddr]

theorem ring_moveLeft {h : Heap α} {l : CyclicList α} {z : Nat × α}
    {ys : List (Nat × α)} (hr : Ring h l (ys ++ [z])) :
    Ring h (moveLeft h l) (z :: ys) := by
  cases ys with
  | nil =>
      have hnodes := ring_head_nodes hr
      have hread := ring_head_read hr
      obtain ⟨hnd, hlen, hcur, hrep⟩ := hr
      refine ⟨hnd, by simpa [moveLeft] using hlen, ?_, hrep⟩
      show (moveLeft h l).nodes = _
      simp only [moveLeft, hnodes, Option.map_some']
      rw [leftOf_eq hread]
      simp [addrs, lastAddr]
  | cons y t =>
      have hnodes := ring_head_nodes hr
      have hread := ring_head_read hr
      obtain ⟨hnd, hlen, hcur, hrep⟩ := hr
      refine ⟨?_, ?_, ?_, ringRep_unrotate1 hrep⟩
      · have : addrs (z :: (y :: t) ++ [z]) = (z.1 :: addrs (y :: t)) ++ [z.1] := by
          simp [addrs]
        have hperm : (addrs ((y :: t) ++ [z])).Perm (z.1 :: addrs (y :: t)) := by
          simpa [addrs] using List.perm_append_singleton z.1 (addrs (y :: t))
        exact (hperm.nodup_iff).mp hnd
      · simpa [moveLeft] using hlen
      · show (moveLeft h l).nodes = _
        simp only [moveLeft, hnodes, Option.map_some']
        rw [leftOf_eq hread]
        have : lastAddr (t ++ [z]) y.1 = z.1 := by
          rw [lastAddr_append]; rfl
        simp [addrs, this]

theorem ring_pushRight_nil {h : Heap α} {l : CyclicList α} (hr : Ring h l [])
    (el : α) :
    Ring (pushRight h l el).1 (pushRight h l el).2 [(List.length h, el)] := by
  have hl := ring_nil_elim hr
  subst hl
  refine ⟨by simp [addrs], by simp [pushRight, CyclicList.new, alloc], ?_, ?_, trivial⟩
  · simp [pushRight, CyclicList.new, alloc, addrs]
  · show read (pushRight h CyclicList.new el).1 (List.length h) = _
    simp only [pushRight, CyclicList.new]
    simpa [headAddr, lastAddr] using read_alloc_self h el

theorem ring_tail_seg {h : Heap α} {l : CyclicList α} {x : Nat × α}
    {rest : List (Nat × α)} (hr : Ring h l (x :: rest)) : Seg h x.1 rest x.1 := by
  obtain ⟨-, -, -, hrep⟩ := hr
  obtain ⟨a, e⟩ := x
  exact hrep.2

theorem ring_pushRight_cons {h : Heap α} {l : CyclicList α} {x : Nat × α}
    {rest : List (Nat × α)} (hr : Ring h l (x :: rest)) (el : α) :
    Ring (pushRight h l el).1 (pushRight h l el).2
      (x :: (List.length h, el) :: rest) := by
  obtain ⟨a, e⟩ := x
  have hnodes : l.nodes = some a := ring_head_nodes hr
  have hread : read h a = some ⟨lastAddr rest a, headAddr rest a, e⟩ :=
    ring_head_read hr
  have hseg : Seg h a rest a := ring_tail_seg hr
  obtain ⟨hnd, hlen, hcur, -⟩ := hr
  have ha_lt : a < List.length h := read_lt_length hread
  have haNotRest : a ∉ addrs rest :=
    (List.nodup_cons.mp (by simpa [addrs] using hnd)).1
  have hndRest : (addrs rest).Nodup :=
    (List.nodup_cons.mp (by simpa [addrs] using hnd)).2
  have hrest_lt : ∀ b ∈ addrs rest, b < List.length h := seg_addr_lt hseg
  have hAnotRest : List.length h ∉ addrs rest := fun hmem =>
    absurd (hrest_lt _ hmem) (by omega)
  simp only [pushRight, hnodes]
  refine ⟨?_, ?_, ?_, ?_⟩
  · show (List.Nodup (a :: List.length h :: addrs rest))
    refine List.nodup_cons.mpr ⟨?_, List.nodup_cons.mpr ⟨hAnotRest, hndRest⟩⟩
    simp only [List.mem_cons]
    rintro (h1 | h1)
    · omega
    · exact haNotRest h1
  · simpa using hlen
  · rfl
  · show RingRep (nodePushRight h a el) ((a, e) :: (List.length h, el) :: rest)
    have rd1a : read (alloc h el).1 a = some ⟨lastAddr rest a, headAddr rest a, e⟩ := by
      rw [read_alloc_lt ha_lt]; exact hread
    have rd1A : read (alloc h el).1 (List.length h) =
        some ⟨List.length h, List.length h, el⟩ := read_alloc_self h el
    have hr1 : rightOf (alloc h el).1 a = headAddr rest a := rightOf_eq rd1a
    have hpush : nodePushRight h a el =
        setRight (setLeft (setRight (setLeft (alloc h el).1
            (rightOf (alloc h el).1 a) (List.length h))
          (List.length h)
          (rightOf (setLeft (alloc h el).1 (rightOf (alloc h el).1 a)
            (List.length h)) a))
          (List.length h) a) a (List.length h) := rfl
    rw [hpush, hr1]
    cases rest with
    | nil =>
        -- one-element ring: the pushed-into node is its own right neighbour
        have rd2a : read (setLeft (alloc h el).1 (headAddr ([] : List (Nat × α)) a)
            (List.length h)) a = some ⟨List.length h, a, e⟩ := by
          show read (setLeft (alloc h el).1 a (List.length h)) a = _
          rw [read_setLeft_self rd1a]
          simp [headAddr, lastAddr]
        have hr2 : rightOf (setLeft (alloc h el).1
            (headAddr ([] : List (Nat × α)) a) (List.length h)) a = a :=
          rightOf_eq rd2a
        rw [hr2]
        have rd3A : read (setRight (setLeft (alloc h el).1
            (headAddr ([] : List (Nat × α)) a) (List.length h))
            (List.length h) a) (List.length h) = some ⟨List.length h, a, el⟩ := by
          show read (setRight (setLeft (alloc h el).1 a (List.length h))
            (List.length h) a) (List.length h) = _
          rw [read_setRight_self (by rw [read_setLeft_ne (by omega)]; exact rd1A)]
        have rd4A : read (setLeft (setRight (setLeft (alloc h el).1
            (headAddr ([] : List (Nat × α)) a) (List.length h))
            (List.length h) a) (List.length h) a) (List.length h) =
            some ⟨a, a, el⟩ := by
          rw [read_setLeft_self rd3A]
        have rd4a : read (setLeft (setRight (setLeft (alloc h el).1
            (headAddr ([] : List (Nat × α)) a) (List.length h))
            (List.length h) a) (List.length h) a) a = some ⟨List.length h, a, e⟩ := by
          rw [read_setLeft_ne (by omega), read_setRight_ne (by omega)]
          exact rd2a
        refine ⟨?_, ?_, trivial⟩
        · show read _ a = some ⟨lastAddr [(List.length h, el)] a, List.length h, e⟩
          rw [read_setRight_self rd4a]
          rfl
        · show read _ (List.length h) = some ⟨a, headAddr ([] : List (Nat × α)) a, el⟩
          rw [read_setRight_ne (by omega)]
          simpa [headAddr] using rd4A
    | cons r t =>
        have hra : r.1 ≠ a := fun hh =>
          haNotRest (by simp [addrs, hh])
        have hr_lt : r.1 < List.length h := hrest_lt _ (by simp [addrs])
        have hrtseg : Seg h r.1 t a := by
          obtain ⟨rr1, rr2⟩ := r
          exact hseg.2
        have hrread : read h r.1 = some ⟨a, headAddr t a, r.2⟩ := by
          obtain ⟨rr1, rr2⟩ := r
          exact hseg.1
        have ht_lt : ∀ b ∈ addrs t, b < List.length h := fun b hb =>
          hrest_lt b (by simp [addrs] at hb ⊢; right; exact hb)
        have hndRest' : r.1 ∉ addrs t ∧ (addrs t).Nodup :=
          List.nodup_cons.mp hndRest
        have hrNotT : r.1 ∉ addrs t := hndRest'.1
        have haNotT : a ∉ addrs t := fun hb =>
          haNotRest (List.mem_cons_of_mem _ hb)
        have hcvt : headAddr (r :: t) a = r.1 := rfl
        rw [hcvt] at rd1a hr1 ⊢
        have rd2a : read (setLeft (alloc h el).1 r.1 (List.length h)) a =
            some ⟨lastAddr (r :: t) a, r.1, e⟩ := by
          rw [read_setLeft_ne (fun hh => hra hh.symm)]
          exact rd1a
        have hr2 : rightOf (setLeft (alloc h el).1 r.1 (List.length h)) a = r.1 :=
          rightOf_eq rd2a
        rw [hr2]
        have rd2r : read (setLeft (alloc h el).1 r.1 (List.length h)) r.1 =
            some ⟨List.length h, headAddr t a, r.2⟩ := by
          rw [read_setLeft_self (by rw [read_alloc_lt hr_lt]; exact hrread)]
        have rd2A : read (setLeft (alloc h el).1 r.1 (List.length h))
            (List.length h) = some ⟨List.length h, List.length h, el⟩ := by
          rw [read_setLeft_ne (by omega)]
          exact rd1A
        show read _ a = some ⟨lastAddr ((List.length h, el) :: r :: t) a,
            List.length h, e⟩ ∧
          Seg _ a ((List.length h, el) :: r :: t) a
        refine ⟨?_, ?_⟩
        · rw [read_setRight_self (show read _ a = some ⟨lastAddr (r :: t) a,
            r.1, e⟩ by
              rw [read_setLeft_ne (by omega), read_setRight_ne (by omega)]
              exact rd2a)]
          rfl
        show read _ (List.length h) = some ⟨a, headAddr (r :: t) a, el⟩ ∧
          Seg _ (List.length h) (r :: t) a
        refine ⟨?_, ?_⟩
        · rw [read_setRight_ne (by omega), read_setLeft_self
            (show read _ (List.length h) = some ⟨List.length h,
              r.1, el⟩ by rw [read_setRight_self rd2A])]
          rfl
        show read _ r.1 = some ⟨List.length h, headAddr t a, r.2⟩ ∧
          Seg _ r.1 t a
        refine ⟨?_, ?_⟩
        · rw [read_setRight_ne hra, read_setLeft_ne (by omega),
            read_setRight_ne (by omega)]
          exact rd2r
        · refine Seg_congr (fun p hp => ?_) hrtseg
          have hpa : p.1 ≠ a := fun hh => haNotT (by
            rw [← hh]; exact List.mem_map_of_mem Prod.fst hp)
          have hpr : p.1 ≠ r.1 := fun hh => hrNotT (by
            rw [← hh]; exact List.mem_map_of_mem Prod.fst hp)
          have hpA : p.1 < List.length h := ht_lt _ (List.mem_map_of_mem Prod.fst hp)
          rw [read_setRight_ne hpa, read_setLeft_ne (by omega),
            read_setRight_ne (by omega), read_setLeft_ne hpr,
            read_alloc_lt hpA]

theorem ring_popRight_nil {h : Heap α} {l : CyclicList α} (hr : Ring h l []) :
    popRight h l = (h, l, none) := by
  have hl := ring_nil_elim hr
  subst hl
  rfl

theorem ring_popRight_single {h : Heap α} {l : CyclicList α} {x : Nat × α}
    (hr : Ring h l [x]) :
    (popRight h l).2.2 = some x.2 ∧ (popRight h l).2.1 = CyclicList.new ∧
      read (popRight h l).1 x.1 = none := by
  obtain ⟨a, e⟩ := x
  have hnodes : l.nodes = some a := ring_head_nodes hr
  have hread : read h a = some ⟨a, a, e⟩ := by
    simpa [lastAddr, headAddr] using ring_head_read hr
  obtain ⟨-, hlen, -, -⟩ := hr
  have hlen1 : l.len = 1 := by simpa using hlen
  have hra : rightOf h a = a := rightOf_eq hread
  have hla : leftOf h a = a := leftOf_eq hread
  simp only [popRight, hnodes, nodePopRight, hra, hla, hlen1]
  have h1read : read (setLeft h a a) a = some ⟨a, a, e⟩ := by
    rw [read_setLeft_self hread]
  have hra1 : rightOf (setLeft h a a) a = a := rightOf_eq h1read
  have hla1 : leftOf (setLeft h a a) a = a := leftOf_eq h1read
  simp only [hra1, hla1]
  have h2read : read (setRight (setLeft h a a) a a) a = some ⟨a, a, e⟩ := by
    rw [read_setRight_self h1read]
  refine ⟨?_, rfl, ?_⟩
  · rw [elemAt_eq h2read]
  · exact read_free_self _ a

theorem ring_popRight_cons {h : Heap α} {l : CyclicList α} {x y : Nat × α}
    {t : List (Nat × α)} (hr : Ring h l (x :: y :: t)) :
    (popRight h l).2.2 = some y.2 ∧
      Ring (popRight h l).1 (popRight h l).2.1 (x :: t) := by
  obtain ⟨a, e⟩ := x
  have hnodes : l.nodes = some a := ring_head_nodes hr
  have hread : read h a = some ⟨lastAddr (y :: t) a, y.1, e⟩ :=
    ring_head_read hr
  have hseg : Seg h a (y :: t) a := ring_tail_seg hr
  have hyread : read h y.1 = some ⟨a, headAddr t a, y.2⟩ := by
    obtain ⟨b, f⟩ := y
    exact hseg.1
  have htseg : Seg h y.1 t a := by
    obtain ⟨b, f⟩ := y
    exact hseg.2
  obtain ⟨hnd, hlen, hcur, -⟩ := hr
  have hab : a ≠ y.1 := by
    have := (List.nodup_cons.mp (show (a :: addrs (y :: t)).Nodup from by
      simpa [addrs] using hnd)).1
    intro hh
    exact this (by simp [addrs, hh])
  have hndyt : (addrs (y :: t)).Nodup :=
    (List.nodup_cons.mp (show (a :: addrs (y :: t)).Nodup from by
      simpa [addrs] using hnd)).2
  have hyNotT : y.1 ∉ addrs t := (List.nodup_cons.mp hndyt).1
  have haNotT : a ∉ addrs t := by
    have := (List.nodup_cons.mp (show (a :: addrs (y :: t)).Nodup from by
      simpa [addrs] using hnd)).1
    intro hb
    exact this (List.mem_cons_of_mem _ hb)
  have hlen2 : l.len = t.length + 2 := by simpa using hlen
  have hra : rightOf h a = y.1 := rightOf_eq hread
  have hry : rightOf h y.1 = headAddr t a := rightOf_eq hyread
  have hly : leftOf h y.1 = a := leftOf_eq hyread
  simp only [popRight, hnodes, nodePopRight, hra, hry, hly, hlen2]
  cases t with
  | nil =>
      -- two-element ring collapsing to one self-linked node
      have hcvt : headAddr ([] : List (Nat × α)) a = a := rfl
      rw [hcvt]
      have hlast : lastAddr [y] a = y.1 := rfl
      rw [hlast] at hread
      have h1a : read (setLeft h a a) a = some ⟨a, y.1, e⟩ := by
        rw [read_setLeft_self hread]
      have h1y : read (setLeft h a a) y.1 = some ⟨a, a, y.2⟩ := by
        rw [read_setLeft_ne (fun hh => hab hh.symm)]
        exact hyread
      have hly1 : leftOf (setLeft h a a) y.1 = a := leftOf_eq h1y
      have hry1 : rightOf (setLeft h a a) y.1 = a := rightOf_eq h1y
      simp only [hly1, hry1]
      have h2a : read (setRight (setLeft h a a) a a) a = some ⟨a, a, e⟩ := by
        rw [read_setRight_self h1a]
      have h2y : read (setRight (setLeft h a a) a a) y.1 = some ⟨a, a, y.2⟩ := by
        rw [read_setRight_ne (fun hh => hab hh.symm)]
        exact h1y
      refine ⟨?_, ?_, ?_, ?_, ?_, trivial⟩
      · rw [elemAt_eq h2y]
      · simpa [addrs] using List.nodup_nil
      · simp
      · simp [addrs]
      · show read _ a = some ⟨lastAddr ([] : List (Nat × α)) a,
          headAddr ([] : List (Nat × α)) a, e⟩
        rw [read_free_ne hab]
        exact h2a
  | cons z u =>
      have hcvt : headAddr (z :: u) a = z.1 := rfl
      rw [hcvt]
      have hza : z.1 ≠ a := fun hh => haNotT (by simp [addrs, hh])
      have hzy : z.1 ≠ y.1 := fun hh => hyNotT (by simp [addrs, hh])
      have hzread : read h z.1 = some ⟨y.1, headAddr u a, z.2⟩ := by
        obtain ⟨c, g⟩ := z
        exact htseg.1
      have huseg : Seg h z.1 u a := by
        obtain ⟨c, g⟩ := z
        exact htseg.2
      have hzNotU : z.1 ∉ addrs u := by
        have := (List.nodup_cons.mp (show (y.1 :: addrs (z :: u)).Nodup from by
          simpa [addrs] using hndyt)).2
        exact (List.nodup_cons.mp (show (z.1 :: addrs u).Nodup from by
          simpa [addrs] using this)).1
      have hyNotU : y.1 ∉ addrs u := fun hb => hyNotT (List.mem_cons_of_mem _ hb)
      have haNotU : a ∉ addrs u := fun hb => haNotT (List.mem_cons_of_mem _ hb)
      -- W1: left of z becomes a
      have h1z : read (setLeft h z.1 a) z.1 = some ⟨a, headAddr u a, z.2⟩ := by
        rw [read_setLeft_self hzread]
      have h1a : read (setLeft h z.1 a) a = some ⟨lastAddr (y :: z :: u) a, y.1, e⟩ := by
        rw [read_setLeft_ne hza.symm]
        exact hread
      have h1y : read (setLeft h z.1 a) y.1 = some ⟨a, z.1, y.2⟩ := by
        rw [read_setLeft_ne hzy.symm]
        exact hyread
      have hly1 : leftOf (setLeft h z.1 a) y.1 = a := leftOf_eq h1y
      have hry1 : rightOf (setLeft h z.1 a) y.1 = z.1 := rightOf_eq h1y
      simp only [hly1, hry1]
      -- W2: right of a becomes z
      have h2a : read (setRight (setLeft h z.1 a) a z.1) a =
          some ⟨lastAddr (y :: z :: u) a, z.1, e⟩ := by
        rw [read_setRight_self h1a]
      have h2z : read (setRight (setLeft h z.1 a) a z.1) z.1 =
          some ⟨a, headAddr u a, z.2⟩ := by
        rw [read_setRight_ne hza]
        exact h1z
      have h2y : read (setRight (setLeft h z.1 a) a z.1) y.1 =
          some ⟨a, z.1, y.2⟩ := by
        rw [read_setRight_ne (fun hh => hab hh.symm)]
        exact h1y
      refine ⟨?_, ?_, ?_, ?_, ?_⟩
      · rw [elemAt_eq h2y]
      · show (a :: addrs (z :: u)).Nodup
        refine List.nodup_cons.mpr ⟨?_, (List.nodup_cons.mp hndyt).2⟩
        intro hmem
        rcases List.mem_cons.mp hmem with hh | hh
        · exact hza hh.symm
        · exact haNotU hh
      · simp
      · simp [addrs]
      · show read _ a = some ⟨lastAddr ((a, e) :: z :: u).tail a,
          headAddr (z :: u) a, e⟩ ∧ Seg _ a (z :: u) a
        refine ⟨?_, ?_, ?_⟩
        · rw [read_free_ne hab, h2a]
          show _ = some ⟨lastAddr (z :: u) a, z.1, e⟩
          have h5 : lastAddr (y :: z :: u) a = lastAddr (z :: u) a := rfl
          rw [h5]
        · show read _ z.1 = some ⟨a, headAddr u a, z.2⟩
          rw [read_free_ne hzy]
          exact h2z
        · refine Seg_congr (fun p hp => ?_) huseg
          have hpy : p.1 ≠ y.1 := fun hh => hyNotU (by
            rw [← hh]; exact List.mem_map_of_mem Prod.fst hp)
          have hpa : p.1 ≠ a := fun hh => haNotU (by
            rw [← hh]; exact List.mem_map_of_mem Prod.fst hp)
          have hpz : p.1 ≠ z.1 := fun hh => hzNotU (by
            rw [← hh]; exact List.mem_map_of_mem Prod.fst hp)
          rw [read_free_ne hpy, read_setRight_ne hpa, read_setLeft_ne hpz]

theorem ring_nil_flip {h : Heap α} {l : CyclicList α} (hr : Ring h l []) :
    Ring (flip h) l [] := by
  obtain ⟨h1, h2, h3, -⟩ := hr
  exact ⟨h1, h2, h3, trivial⟩

theorem ring_pushLeft_nil {h : Heap α} {l : CyclicList α} (hr : Ring h l [])
    (el : α) :
    Ring (pushLeft h l el).1 (pushLeft h l el).2 [(List.length h, el)] := by
  rw [pushLeft_eq_flip]
  have h1 := ring_pushRight_nil (ring_nil_flip hr) el
  rw [length_flip] at h1
  have h1' : Ring (pushRight (flip h) l el).1 (pushRight (flip h) l el).2
      ((List.length h, el) :: []) := h1
  have h2 := ring_flip h1'
  simpa using h2

theorem ring_pushLeft_cons {h : Heap α} {l : CyclicList α} {x : Nat × α}
    {rest : List (Nat × α)} (hr : Ring h l (x :: rest)) (el : α) :
    Ring (pushLeft h l el).1 (pushLeft h l el).2
      (x :: (rest ++ [(List.length h, el)])) := by
  rw [pushLeft_eq_flip]
  have h1 := ring_pushRight_cons (ring_flip hr) el
  rw [length_flip] at h1
  have h2 := ring_flip h1
  simpa using h2

theorem ring_popLeft_nil {h : Heap α} {l : CyclicList α} (hr : Ring h l []) :
    popLeft h l = (h, l, none) := by
  have hl := ring_nil_elim hr
  subst hl
  rfl

theorem ring_popLeft_concat {h : Heap α} {l : CyclicList α} {z : Nat × α}
    {ys : List (Nat × α)} (hr : Ring h l (ys ++ [z])) :
    (popLeft h l).2.2 = some z.2 ∧
      Ring (popLeft h l).1 (popLeft h l).2.1 ys := by
  rw [popLeft_eq_flip]
  cases ys with
  | nil =>
      have hr' : Ring h l (z :: []) := hr
      have h1 : Ring (flip h) l [z] := by simpa using ring_flip hr'
      obtain ⟨hv, hl', -⟩ := ring_popRight_single h1
      refine ⟨hv, ?_⟩
      rw [hl']
      exact ring_new _
  | cons y t =>
      have h0 : Ring h l (y :: (t ++ [z])) := hr
      have h1 : Ring (flip h) l (y :: z :: List.reverse t) := by
        have := ring_flip h0
        simpa [List.reverse_append] using this
      obtain ⟨hv, hring⟩ := ring_popRight_cons h1
      refine ⟨hv, ?_⟩
      have h2 := ring_flip hring
      simpa using h2

theorem ring_popMoveRight_nil {h : Heap α} {l : CyclicList α}
    (hr : Ring h l []) : popMoveRight h l = (h, l, none) := by
  have hl := ring_nil_elim hr
  subst hl
  rfl

theorem ring_popMoveRight_cons {h : Heap α} {l : CyclicList α} {x : Nat × α}
    {rest : List (Nat × α)} (hr : Ring h l (x :: rest)) :
    (popMoveRight h l).2.2 = some x.2 ∧
      Ring (popMoveRight h l).1 (popMoveRight h l).2.1 rest := by
  have h1 := ring_moveRight hr
  exact ring_popLeft_concat h1

theorem ring_pushMoveRight_nil {h : Heap α} {l : CyclicList α}
    (hr : Ring h l []) (el : α) :
    Ring (pushMoveRight h l el).1 (pushMoveRight h l el).2
      [(List.length h, el)] := by
  have h1 := ring_pushRight_nil hr el
  have h2 := ring_moveRight h1
  simpa [pushMoveRight] using h2

theorem ring_pushMoveRight_cons {h : Heap α} {l : CyclicList α} {x : Nat × α}
    {rest : List (Nat × α)} (hr : Ring h l (x :: rest)) (el : α) :
    Ring (pushMoveRight h l el).1 (pushMoveRight h l el).2
      ((List.length h, el) :: (rest ++ [x])) := by
  have h1 := ring_pushRight_cons hr el
  have h2 := ring_moveRight h1
  simpa [pushMoveRight] using h2

theorem ring_pushMoveLeft_nil {h : Heap α} {l : CyclicList α}
    (hr : Ring h l []) (el : α) :
    Ring (pushMoveLeft h l el).1 (pushMoveLeft h l el).2
      [(List.length h, el)] := by
  have h1 := ring_pushLeft_nil hr el
  have h1' : Ring (pushLeft h l el).1 (pushLeft h l el).2
      ([] ++ [(List.length h, el)]) := h1
  have h2 := ring_moveLeft h1'
  simpa [pushMoveLeft] using h2

theorem ring_pushMoveLeft_cons {h : Heap α} {l : CyclicList α} {x : Nat × α}
    {rest : List (Nat × α)} (hr : Ring h l (x :: rest)) (el : α) :
    Ring (pushMoveLeft h l el).1 (pushMoveLeft h l el).2
      ((List.length h, el) :: x :: rest) := by
  have h1 := ring_pushLeft_cons hr el
  have h1' : Ring (pushLeft h l el).1 (pushLeft h l el).2
      ((x :: rest) ++ [(List.length h, el)]) := h1
  have h2 := ring_moveLeft h1'
  simpa [pushMoveLeft] using h2

theorem ring_popMoveLeft_nil {h : Heap α} {l : CyclicList α}
    (hr : Ring h l []) : popMoveLeft h l = (h, l, none) := by
  have hl := ring_nil_elim hr
  subst hl
  rfl

theorem ring_popMoveLeft_single {h : Heap α} {l : CyclicList α} {x : Nat × α}
    (hr : Ring h l [x]) :
    (popMoveLeft h l).2.2 = some x.2 ∧
      Ring (popMoveLeft h l).1 (popMoveLeft h l).2.1 [] := by
  have hr' : Ring h l ([] ++ [x]) := hr
  have h1 := ring_moveLeft hr'
  obtain ⟨hv, hl', -⟩ := ring_popRight_single h1
  refine ⟨hv, ?_⟩
  show Ring (popRight h (moveLeft h l)).1 (popRight h (moveLeft h l)).2.1 []
  rw [hl']
  exact ring_new _

theorem ring_popMoveLeft_concat {h : Heap α} {l : CyclicList α} {x z : Nat × α}
    {t : List (Nat × α)} (hr : Ring h l ((x :: t) ++ [z])) :
    (popMoveLeft h l).2.2 = some x.2 ∧
      Ring (popMoveLeft h l).1 (popMoveLeft h l).2.1 (z :: t) := by
  have h1 := ring_moveLeft hr
  exact ring_popRight_cons h1

/-! ### Observable values of a represented list -/

theorem ring_current {h : Heap α} {l : CyclicList α} {xs : List (Nat × α)}
    (hr : Ring h l xs) : current h l = List.head? (elems xs) := by
  cases xs with
  | nil =>
      have hl := ring_nil_elim hr
      subst hl
      rfl
  | cons x rest =>
      have hnodes := ring_head_nodes hr
      have hread := ring_head_read hr
      simp [current, hnodes, elemAt_eq hread, elems]

theorem moveRight_of_ring_nil {h : Heap α} {l : CyclicList α}
    (hr : Ring h l []) : moveRight h l = l := by
  have hl := ring_nil_elim hr
  subst hl
  rfl

theorem moveLeft_of_ring_nil {h : Heap α} {l : CyclicList α}
    (hr : Ring h l []) : moveLeft h l = l := by
  have hl := ring_nil_elim hr
  subst hl
  rfl

theorem rightVal_eq_current_moveRight (h : Heap α) (l : CyclicList α) :
    rightVal h l = current h (moveRight h l) := by
  rcases l with ⟨nodes, len⟩
  cases nodes <;> rfl

theorem leftVal_eq_current_moveLeft (h : Heap α) (l : CyclicList α) :
    leftVal h l = current h (moveLeft h l) := by
  rcases l with ⟨nodes, len⟩
  cases nodes <;> rfl

theorem ring_rightVal {h : Heap α} {l : CyclicList α} {x : Nat × α}
    {rest : List (Nat × α)} (hr : Ring h l (x :: rest)) :
    rightVal h l = List.head? (elems (rest ++ [x])) := by
  rw [rightVal_eq_current_moveRight]
  exact ring_current (ring_moveRight hr)

theorem ring_leftVal {h : Heap α} {l : CyclicList α} {xs : List (Nat × α)}
    (hr : Ring h l xs) : leftVal h l = List.getLast? (elems xs) := by
  rcases List.eq_nil_or_concat xs with hnil | ⟨ys, z, hcat⟩
  · subst hnil
    have hl := ring_nil_elim hr
    subst hl
    rfl
  · subst hcat
    rw [leftVal_eq_current_moveLeft]
    have h1 := ring_moveLeft (show Ring h l (ys ++ [z]) by
      simpa [List.concat_eq_append] using hr)
    rw [List.concat_eq_append]
    rw [ring_current h1]
    simp [elems]

theorem ring_eq_of_ring {h h' : Heap α} {l l' : CyclicList α}
    {xs : List (Nat × α)} (hr : Ring h l xs) (hr' : Ring h' l' xs) : l = l' := by
  obtain ⟨-, hlen, hcur, -⟩ := hr
  obtain ⟨-, hlen', hcur', -⟩ := hr'
  rcases l with ⟨n1, m1⟩
  rcases l' with ⟨n2, m2⟩
  simp_all

/-! ### Iterated moves -/

theorem ring_moveRightN {h : Heap α} {l : CyclicList α} {xs : List (Nat × α)}
    (hr : Ring h l xs) (n : Nat) :
    Ring h (moveRightN h l n) (xs.rotate n) := by
  induction n with
  | zero => simpa [moveRightN, List.rotate_zero] using hr
  | succ n ih =>
      show Ring h (moveRight h (moveRightN h l n)) (xs.rotate (n + 1))
      rcases hrot : xs.rotate n with - | ⟨x, rest⟩
      · rw [hrot] at ih
        have hx : xs = [] := by
          cases xs with
          | nil => rfl
          | cons a b => exact absurd (congrArg List.length hrot) (by simp)
        subst hx
        rw [moveRight_of_ring_nil ih]
        simpa [List.rotate_nil] using ih
      · rw [hrot] at ih
        have h1 := ring_moveRight ih
        have h2 : xs.rotate (n + 1) = rest ++ [x] := by
          rw [← List.rotate_rotate, hrot, List.rotate_cons_succ, List.rotate_zero]
        rw [h2]
        exact h1

theorem ring_moveLeftN {h : Heap α} {l : CyclicList α} {xs : List (Nat × α)}
    (hr : Ring h l xs) (n : Nat) :
    Ring h (moveLeftN h l n) (xs.rotate (n * (xs.length - 1))) := by
  induction n with
  | zero => simpa [moveLeftN, List.rotate_zero] using hr
  | succ n ih =>
      show Ring h (moveLeft h (moveLeftN h l n)) (xs.rotate ((n + 1) * (xs.length - 1)))
      rcases hrot : xs.rotate (n * (xs.length - 1)) with - | ⟨x, rest⟩
      · rw [hrot] at ih
        have hx : xs = [] := by
          cases xs with
          | nil => rfl
          | cons a b => exact absurd (congrArg List.length hrot) (by simp)
        subst hx
        rw [moveLeft_of_ring_nil ih]
        simpa [List.rotate_nil] using ih
      · rw [hrot] at ih
        rcases List.eq_nil_or_concat (x :: rest) with hnil | ⟨ys, z, hcat⟩
        · exact absurd hnil (by simp)
        · rw [hcat, List.concat_eq_append] at ih
          have h1 := ring_moveLeft ih
          have hlenxs : List.length xs = List.length ys + 1 := by
            have h3 := congrArg List.length hrot
            rw [hcat] at h3
            simp [List.concat_eq_append] at h3
            omega
          have h2 : xs.rotate ((n + 1) * (xs.length - 1)) = z :: ys := by
            have hstep : (ys ++ [z]).rotate (List.length ys) = z :: ys := by
              rw [List.rotate_eq_drop_append_take (by simp)]
              simp
            have : xs.rotate ((n + 1) * (xs.length - 1)) =
                (xs.rotate (n * (xs.length - 1))).rotate (xs.length - 1) := by
              rw [List.rotate_rotate]
              ring_nf
            rw [this, hrot, hcat, List.concat_eq_append, hlenxs]
            simpa using hstep
          rw [h2]
          exact h1

/-! ### Construction from a sequence, and draining -/

/-- The fold inside `from_iter`:
`iter.fold(Self::new(), |list, el| list.push_into_right(el))`,
started from an empty arena. -/
def bld (xs : List α) : Heap α × CyclicList α :=
  List.foldl (fun p el => pushIntoRight p.1 p.2 el) ([], CyclicList.new) xs

theorem fromList_eq_bld (xs : List α) :
    fromList xs = ((bld xs).1, intoRight (bld xs).1 (bld xs).2) := rfl

theorem pushIntoRight_eq_pushMoveRight :
    @pushIntoRight α = @pushMoveRight α := rfl

theorem bld_append_singleton (p : List α) (x : α) :
    bld (p ++ [x]) = pushIntoRight (bld p).1 (bld p).2 x := by
  unfold bld
  rw [List.foldl_append]
  rfl

theorem bld_ring (p : List α) : ∀ x : α, ∃ xs : List (Nat × α),
    Ring (bld (p ++ [x])).1 (bld (p ++ [x])).2 xs ∧ elems xs = x :: p := by
  induction p using List.reverseRecOn with
  | nil =>
      intro x
      refine ⟨[(0, x)], ?_, rfl⟩
      have h1 := ring_pushMoveRight_nil (ring_new ([] : Heap α)) x
      simpa [bld, pushIntoRight_eq_pushMoveRight] using h1
  | append_singleton pre y ih =>
      intro x
      obtain ⟨xs, hring, helems⟩ := ih y
      cases xs with
      | nil => simp [elems] at helems
      | cons x0 rest =>
          have h1 := ring_pushMoveRight_cons hring x
          have hinj : x0.2 = y ∧ elems rest = pre := by
            have := helems
            simp [elems] at this
            exact ⟨this.1, this.2⟩
          refine ⟨(List.length (bld (pre ++ [y])).1, x) :: (rest ++ [x0]), ?_, ?_⟩
          · rw [bld_append_singleton (pre ++ [y]) x,
              pushIntoRight_eq_pushMoveRight]
            exact h1
          · simp [elems, hinj.1, ← hinj.2]

theorem fromList_ring (p : List α) (hne : p ≠ []) : ∃ xs : List (Nat × α),
    Ring (fromList p).1 (fromList p).2 xs ∧ elems xs = p := by
  rcases List.eq_nil_or_concat p with h | ⟨pre, x, hcat⟩
  · exact absurd h hne
  · subst hcat
    rw [List.concat_eq_append]
    obtain ⟨xs, hring, helems⟩ := bld_ring pre x
    cases xs with
    | nil => simp [elems] at helems
    | cons x0 rest =>
        have h1 := ring_moveRight hring
        have hinj : x0.2 = x ∧ elems rest = pre := by
          have := helems
          simp [elems] at this
          exact ⟨this.1, this.2⟩
        refine ⟨rest ++ [x0], ?_, ?_⟩
        · rw [fromList_eq_bld]
          exact h1
        · simp [elems, hinj.1, ← hinj.2]

/-- Repeatedly call `pop_move_right` `n` times, collecting the returned
values (models the consuming iteration loop). -/
def drainN : Heap α → CyclicList α → Nat → List (Option α) × Heap α × CyclicList α
  | h, l, 0 => ([], h, l)
  | h, l, n + 1 =>
      let p := popMoveRight h l
      let q := drainN p.1 p.2.1 n
      (p.2.2 :: q.1, q.2)

theorem ring_drainN {h : Heap α} {l : CyclicList α} {xs : List (Nat × α)}
    (hr : Ring h l xs) :
    (drainN h l xs.length).1 = List.map (fun p => some p.2) xs ∧
      Ring (drainN h l xs.length).2.1 (drainN h l xs.length).2.2 [] := by
  induction xs generalizing h l with
  | nil => exact ⟨rfl, hr⟩
  | cons x rest ih =>
      obtain ⟨hv, hring⟩ := ring_popMoveRight_cons hr
      obtain ⟨ih1, ih2⟩ := ih hring
      constructor
      · show (popMoveRight h l).2.2 ::
          (drainN (popMoveRight h l).1 (popMoveRight h l).2.1 rest.length).1 = _
        rw [hv, ih1]
        rfl
      · exact ih2

/-! ### Reachability and mutual link consistency -/

/-- Follow `right` pointers `k` times (the addresses visited by repeated
`move_right`). -/
def iterRight (h : Heap α) (a : Nat) : Nat → Nat
  | 0 => a
  | k + 1 => rightOf h (iterRight h a k)

theorem ringRep_head_rightOf {h : Heap α} {x : Nat × α} {rest : List (Nat × α)}
    (hr : RingRep h (x :: rest)) :
    rightOf h x.1 = headAddr (rest ++ [x]) 0 := by
  obtain ⟨a, e⟩ := x
  have hread : read h a = some ⟨lastAddr rest a, headAddr rest a, e⟩ := hr.1
  rw [rightOf_eq hread]
  cases rest with
  | nil => rfl
  | cons r t => rfl

theorem ringRep_iterRight {h : Heap α} {xs : List (Nat × α)}
    (hr : RingRep h xs) (hne : xs ≠ []) (k : Nat) :
    iterRight h (headAddr xs 0) k = headAddr (xs.rotate k) 0 := by
  induction k with
  | zero => rw [List.rotate_zero]; rfl
  | succ k ih =>
      show rightOf h (iterRight h (headAddr xs 0) k) = _
      rw [ih]
      rcases hrot : xs.rotate k with - | ⟨y, t⟩
      · exact absurd (by simpa using congrArg List.length hrot)
          (fun hh => hne (List.length_eq_zero.mp hh))
      · have hrep := ringRep_rotate hr k
        rw [hrot] at hrep
        have h1 := ringRep_head_rightOf hrep
        have h2 : xs.rotate (k + 1) = t ++ [y] := by
          rw [← List.rotate_rotate, hrot, List.rotate_cons_succ, List.rotate_zero]
        rw [h2]
        exact h1

theorem ringRep_head_mutual {h : Heap α} {b : Nat} {e : α}
    {rest : List (Nat × α)} (hr : RingRep h ((b, e) :: rest)) :
    leftOf h (rightOf h b) = b ∧ rightOf h (leftOf h b) = b := by
  have hread : read h b = some ⟨lastAddr rest b, headAddr rest b, e⟩ := hr.1
  have hseg : Seg h b rest b := hr.2
  constructor
  · rw [rightOf_eq hread]
    cases rest with
    | nil => exact leftOf_eq hread
    | cons r t =>
        show leftOf h r.1 = b
        obtain ⟨c, g⟩ := r
        exact leftOf_eq hseg.1
  · rw [leftOf_eq hread]
    rcases List.eq_nil_or_concat rest with hnil | ⟨ys, z, hcat⟩
    · subst hnil
      exact rightOf_eq hread
    · subst hcat
      rw [List.concat_eq_append] at hseg ⊢
      rw [lastAddr_append]
      show rightOf h z.1 = b
      have := (Seg_append.mp hseg).2
      obtain ⟨c, g⟩ := z
      have hz : read h c = some ⟨lastAddr ys b, b, g⟩ := this.1
      exact rightOf_eq hz

theorem ring_mutual {h : Heap α} {l : CyclicList α} {xs : List (Nat × α)}
    (hr : Ring h l xs) :
    ∀ b ∈ addrs xs, leftOf h (rightOf h b) = b ∧ rightOf h (leftOf h b) = b := by
  intro b hb
  obtain ⟨⟨b', e⟩, hmem, hfst⟩ := List.mem_map.mp hb
  simp only at hfst
  subst hfst
  obtain ⟨s, t, hsplit⟩ := List.append_of_mem hmem
  have hrot : xs.rotate s.length = (b', e) :: (t ++ s) := by
    rw [hsplit, List.rotate_eq_drop_append_take (by rw [List.length_append]; omega)]
    rw [List.drop_left, List.take_left]
    rfl
  have hrep := ringRep_rotate hr.2.2.2 s.length
  rw [hrot] at hrep
  exact ringRep_head_mutual hrep

theorem ring_reach {h : Heap α} {l : CyclicList α} {x : Nat × α}
    {rest : List (Nat × α)} (hr : Ring h l (x :: rest)) :
    ∀ b, (∃ k, iterRight h x.1 k = b) ↔ b ∈ addrs (x :: rest) := by
  have hrep : RingRep h (x :: rest) := hr.2.2.2
  have hne : (x :: rest) ≠ [] := by simp
  intro b
  constructor
  · rintro ⟨k, rfl⟩
    have := ringRep_iterRight hrep hne k
    have hhd : headAddr ((x :: rest) : List (Nat × α)) 0 = x.1 := rfl
    rw [hhd] at this
    rw [this]
    rcases hrot : (x :: rest).rotate k with - | ⟨y, t⟩
    · have hlen := congrArg List.length hrot
      rw [List.length_rotate] at hlen
      simp at hlen
    · have hy : y ∈ (x :: rest).rotate k := by rw [hrot]; exact List.mem_cons_self _ _
      rw [List.mem_rotate] at hy
      show headAddr (y :: t) 0 ∈ addrs (x :: rest)
      exact List.mem_map_of_mem Prod.fst hy
  · intro hb
    obtain ⟨⟨b', e⟩, hmem, hfst⟩ := List.mem_map.mp hb
    simp only at hfst
    subst hfst
    obtain ⟨s, t, hsplit⟩ := List.append_of_mem hmem
    refine ⟨s.length, ?_⟩
    have hrot : (x :: rest).rotate s.length = (b', e) :: (t ++ s) := by
      rw [hsplit, List.rotate_eq_drop_append_take (by rw [List.length_append]; omega)]
      rw [List.drop_left, List.take_left]
      rfl
    have := ringRep_iterRight hrep hne s.length
    have hhd : headAddr ((x :: rest) : List (Nat × α)) 0 = x.1 := rfl
    rw [hhd, hrot] at this
    exact this

/-! ### The mutating operations, as one type -/

/-- Every mutating operation of `CyclicList` (§4.1 of the spec): the pushes,
moves, pops, their `push_move`/`pop_move` combinations and the consuming
`into` variants. -/
inductive Op (α : Type) where
  | opPushRight (el : α)
  | opPushLeft (el : α)
  | opMoveRight
  | opMoveLeft
  | opMoveRightN (n : Nat)
  | opMoveLeftN (n : Nat)
  | opIntoRight
  | opIntoLeft
  | opIntoRightN (n : Nat)
  | opIntoLeftN (n : Nat)
  | opPushMoveRight (el : α)
  | opPushMoveLeft (el : α)
  | opPushIntoRight (el : α)
  | opPushIntoLeft (el : α)
  | opPopRight
  | opPopLeft
  | opPopMoveRight
  | opPopMoveLeft

/-- Run one mutating operation (dropping any returned element). -/
def applyOp (op : Op α) (h : Heap α) (l : CyclicList α) : Heap α × CyclicList α :=
  match op with
  | .opPushRight el => pushRight h l el
  | .opPushLeft el => pushLeft h l el
  | .opMoveRight => (h, moveRight h l)
  | .opMoveLeft => (h, moveLeft h l)
  | .opMoveRightN n => (h, moveRightN h l n)
  | .opMoveLeftN n => (h, moveLeftN h l n)
  | .opIntoRight => (h, intoRight h l)
  | .opIntoLeft => (h, intoLeft h l)
  | .opIntoRightN n => (h, intoRightN h l n)
  | .opIntoLeftN n => (h, intoLeftN h l n)
  | .opPushMoveRight el => pushMoveRight h l el
  | .opPushMoveLeft el => pushMoveLeft h l el
  | .opPushIntoRight el => pushIntoRight h l el
  | .opPushIntoLeft el => pushIntoLeft h l el
  | .opPopRight => ((popRight h l).1, (popRight h l).2.1)
  | .opPopLeft => ((popLeft h l).1, (popLeft h l).2.1)
  | .opPopMoveRight => ((popMoveRight h l).1, (popMoveRight h l).2.1)
  | .opPopMoveLeft => ((popMoveLeft h l).1, (popMoveLeft h l).2.1)

theorem intoRightN_eq_moveRightN (h : Heap α) (l : CyclicList α) (n : Nat) :
    intoRightN h l n = moveRightN h l n := by
  induction n with
  | zero => rfl
  | succ n ih =>
      show List.foldl _ l (List.range (n + 1)) = _
      rw [List.range_succ, List.foldl_append]
      show intoRight h (intoRightN h l n) = _
      rw [ih]
      rfl

theorem intoLeftN_eq_moveLeftN (h : Heap α) (l : CyclicList α) (n : Nat) :
    intoLeftN h l n = moveLeftN h l n := by
  induction n with
  | zero => rfl
  | succ n ih =>
      show List.foldl _ l (List.range (n + 1)) = _
      rw [List.range_succ, List.foldl_append]
      show intoLeft h (intoLeftN h l n) = _
      rw [ih]
      rfl

theorem pushIntoLeft_eq_pushMoveLeft :
    @pushIntoLeft α = @pushMoveLeft α := rfl

theorem valid_pushRight {h : Heap α} {l : CyclicList α} (hv : Valid h l)
    (el : α) : Valid (pushRight h l el).1 (pushRight h l el).2 := by
  obtain ⟨xs, hr⟩ := hv
  cases xs with
  | nil => exact ⟨_, ring_pushRight_nil hr el⟩
  | cons x rest => exact ⟨_, ring_pushRight_cons hr el⟩

theorem valid_pushLeft {h : Heap α} {l : CyclicList α} (hv : Valid h l)
    (el : α) : Valid (pushLeft h l el).1 (pushLeft h l el).2 := by
  obtain ⟨xs, hr⟩ := hv
  cases xs with
  | nil => exact ⟨_, ring_pushLeft_nil hr el⟩
  | cons x rest => exact ⟨_, ring_pushLeft_cons hr el⟩

theorem valid_moveRight {h : Heap α} {l : CyclicList α} (hv : Valid h l) :
    Valid h (moveRight h l) := by
  obtain ⟨xs, hr⟩ := hv
  cases xs with
  | nil => rw [moveRight_of_ring_nil hr]; exact ⟨_, hr⟩
  | cons x rest => exact ⟨_, ring_moveRight hr⟩

theorem valid_moveLeft {h : Heap α} {l : CyclicList α} (hv : Valid h l) :
    Valid h (moveLeft h l) := by
  obtain ⟨xs, hr⟩ := hv
  rcases List.eq_nil_or_concat xs with hnil | ⟨ys, z, hcat⟩
  · subst hnil; rw [moveLeft_of_ring_nil hr]; exact ⟨_, hr⟩
  · subst hcat
    rw [List.concat_eq_append] at hr
    exact ⟨_, ring_moveLeft hr⟩

theorem valid_popRight {h : Heap α} {l : CyclicList α} (hv : Valid h l) :
    Valid (popRight h l).1 (popRight h l).2.1 := by
  obtain ⟨xs, hr⟩ := hv
  cases xs with
  | nil => rw [ring_popRight_nil hr]; exact ⟨_, hr⟩
  | cons x rest =>
      cases rest with
      | nil =>
          obtain ⟨-, hl', -⟩ := ring_popRight_single hr
          rw [hl']
          exact ⟨_, ring_new _⟩
      | cons y t => exact ⟨_, (ring_popRight_cons hr).2⟩

theorem valid_popLeft {h : Heap α} {l : CyclicList α} (hv : Valid h l) :
    Valid (popLeft h l).1 (popLeft h l).2.1 := by
  obtain ⟨xs, hr⟩ := hv
  rcases List.eq_nil_or_concat xs with hnil | ⟨ys, z, hcat⟩
  · subst hnil; rw [ring_popLeft_nil hr]; exact ⟨_, hr⟩
  · subst hcat
    rw [List.concat_eq_append] at hr
    exact ⟨_, (ring_popLeft_concat hr).2⟩

theorem valid_popMoveRight {h : Heap α} {l : CyclicList α} (hv : Valid h l) :
    Valid (popMoveRight h l).1 (popMoveRight h l).2.1 := by
  obtain ⟨xs, hr⟩ := hv
  cases xs with
  | nil => rw [ring_popMoveRight_nil hr]; exact ⟨_, hr⟩
  | cons x rest => exact ⟨_, (ring_popMoveRight_cons hr).2⟩

theorem valid_popMoveLeft {h : Heap α} {l : CyclicList α} (hv : Valid h l) :
    Valid (popMoveLeft h l).1 (popMoveLeft h l).2.1 := by
  obtain ⟨xs, hr⟩ := hv
  cases xs with
  | nil => rw [ring_popMoveLeft_nil hr]; exact ⟨_, hr⟩
  | cons x rest =>
      rcases List.eq_nil_or_concat rest with hnil | ⟨t, z, hcat⟩
      · subst hnil
        exact ⟨_, (ring_popMoveLeft_single hr).2⟩
      · subst hcat
        rw [List.concat_eq_append] at hr
        exact ⟨_, (ring_popMoveLeft_concat hr).2⟩

theorem valid_pushMoveRight {h : Heap α} {l : CyclicList α} (hv : Valid h l)
    (el : α) : Valid (pushMoveRight h l el).1 (pushMoveRight h l el).2 := by
  obtain ⟨xs, hr⟩ := hv
  cases xs with
  | nil => exact ⟨_, ring_pushMoveRight_nil hr el⟩
  | cons x rest => exact ⟨_, ring_pushMoveRight_cons hr el⟩

theorem valid_pushMoveLeft {h : Heap α} {l : CyclicList α} (hv : Valid h l)
    (el : α) : Valid (pushMoveLeft h l el).1 (pushMoveLeft h l el).2 := by
  obtain ⟨xs, hr⟩ := hv
  cases xs with
  | nil => exact ⟨_, ring_pushMoveLeft_nil hr el⟩
  | cons x rest => exact ⟨_, ring_pushMoveLeft_cons hr el⟩

theorem valid_moveRightN {h : Heap α} {l : CyclicList α} (hv : Valid h l)
    (n : Nat) : Valid h (moveRightN h l n) := by
  obtain ⟨xs, hr⟩ := hv
  exact ⟨_, ring_moveRightN hr n⟩

theorem valid_moveLeftN {h : Heap α} {l : CyclicList α} (hv : Valid h l)
    (n : Nat) : Valid h (moveLeftN h l n) := by
  obtain ⟨xs, hr⟩ := hv
  exact ⟨_, ring_moveLeftN hr n⟩

/-- Every mutating operation preserves validity of the representation. -/
theorem valid_applyOp (op : Op α) {h : Heap α} {l : CyclicList α}
    (hv : Valid h l) : Valid (applyOp op h l).1 (applyOp op h l).2 := by
  cases op with
  | opPushRight el => exact valid_pushRight hv el
  | opPushLeft el => exact valid_pushLeft hv el
  | opMoveRight => exact valid_moveRight hv
  | opMoveLeft => exact valid_moveLeft hv
  | opMoveRightN n => exact valid_moveRightN hv n
  | opMoveLeftN n => exact valid_moveLeftN hv n
  | opIntoRight => exact valid_moveRight hv
  | opIntoLeft => exact valid_moveLeft hv
  | opIntoRightN n =>
      show Valid h (intoRightN h l n)
      rw [intoRightN_eq_moveRightN]
      exact valid_moveRightN hv n
  | opIntoLeftN n =>
      show Valid h (intoLeftN h l n)
      rw [intoLeftN_eq_moveLeftN]
      exact valid_moveLeftN hv n
  | opPushMoveRight el => exact valid_pushMoveRight hv el
  | opPushMoveLeft el => exact valid_pushMoveLeft hv el
  | opPushIntoRight el => exact valid_pushMoveRight hv el
  | opPushIntoLeft el => exact valid_pushMoveLeft hv el
  | opPopRight => exact valid_popRight hv
  | opPopLeft => exact valid_popLeft hv
  | opPopMoveRight => exact valid_popMoveRight hv
  | opPopMoveLeft => exact valid_popMoveLeft hv

/-! ### The spec-level ring invariant -/

/-- §3/§8 of the spec, stated for a list header over an arena: if the list is
empty the length is zero; otherwise there is a duplicate-free list of
addresses whose size is exactly `len`, which are precisely the addresses
reachable from the cursor by repeated `move_right`, and every one of them is
mutually consistent with its neighbours (`n.right.left == n` and
`n.left.right == n`). -/
def RingInvariant (h : Heap α) (l : CyclicList α) : Prop :=
  match l.nodes with
  | none => l.len = 0
  | some c =>
      ∃ as : List Nat, as.Nodup ∧ as.length = l.len ∧
        (∀ b, (∃ k, iterRight h c k = b) ↔ b ∈ as) ∧
        (∀ b ∈ as, leftOf h (rightOf h b) = b ∧ rightOf h (leftOf h b) = b)

theorem valid_ringInvariant {h : Heap α} {l : CyclicList α} (hv : Valid h l) :
    RingInvariant h l := by
  obtain ⟨xs, hr⟩ := hv
  cases xs with
  | nil =>
      have hl := ring_nil_elim hr
      subst hl
      show (0 : Nat) = 0
      rfl
  | cons x rest =>
      have hnodes := ring_head_nodes hr
      have hnd := hr.1
      have hlen := hr.2.1
      unfold RingInvariant
      rw [hnodes]
      exact ⟨addrs (x :: rest), hnd, by simpa [addrs] using hlen.symm,
        ring_reach hr, ring_mutual hr⟩

theorem moveRightN_new (h : Heap α) (n : Nat) :
    moveRightN h (CyclicList.new : CyclicList α) n = CyclicList.new := by
  induction n with
  | zero => rfl
  | succ n ih =>
      show moveRight h (moveRightN h CyclicList.new n) = _
      rw [ih]
      rfl

theorem moveLeftN_new (h : Heap α) (n : Nat) :
    moveLeftN h (CyclicList.new : CyclicList α) n = CyclicList.new := by
  induction n with
  | zero => rfl
  | succ n ih =>
      show moveLeft h (moveLeftN h CyclicList.new n) = _
      rw [ih]
      rfl

/-! ### The claims -/

/-- C1: the claim demands that dropping a `CyclicList` deallocates each live
node exactly once, with no leak.  The source defines no `Drop` implementation
(and the header fields have no drop glue), so dropping frees nothing: after
building the one-element list `[42]` and dropping it, its node is still live
(`liveCount = 1`), where the claim requires zero live nodes to remain.  This
theorem evaluates the code at that failing input. -/
theorem c1_drop_deallocates_nothing :
    liveCount (fromList [(42 : Nat)]).1 = 1 ∧
      dropList (fromList [(42 : Nat)]).1 (fromList [(42 : Nat)]).2 =
        (fromList [(42 : Nat)]).1 ∧
      liveCount (dropList (fromList [(42 : Nat)]).1 (fromList [(42 : Nat)]).2) = 1 :=
  ⟨by decide, rfl, by decide⟩

/-- C2: after every mutating operation (pushes, moves, pops and their
`push_move`/`pop_move`/`into` variants) applied to a valid list, the
representation invariant still holds: there is a duplicate-free chain of
nodes representing the ring, every node reachable by repeated `move_right`
from the cursor satisfies `n.right.left == n` and `n.left.right == n`, and
`len()` equals the number of distinct reachable nodes. -/
theorem c2_structural_ring_invariant (op : Op α) (h : Heap α)
    (l : CyclicList α) (hv : Valid h l) :
    Valid (applyOp op h l).1 (applyOp op h l).2 ∧
      RingInvariant (applyOp op h l).1 (applyOp op h l).2 :=
  ⟨valid_applyOp op hv, valid_ringInvariant (valid_applyOp op hv)⟩

/-- Witness for C2 at the list built from `[1, 2, 3]` and the operation
`push_right 5`. -/
theorem c2_structural_ring_invariant_witness :
    Valid (fromList [1, 2, 3]).1 ((fromList [1, 2, 3] : Heap Nat × CyclicList Nat)).2 ∧
      (Valid (applyOp (Op.opPushRight 5) (fromList [1, 2, 3]).1 (fromList [1, 2, 3]).2).1
          (applyOp (Op.opPushRight 5) (fromList [1, 2, 3]).1 (fromList [1, 2, 3]).2).2 ∧
        RingInvariant (applyOp (Op.opPushRight 5) (fromList [1, 2, 3]).1
            (fromList [1, 2, 3]).2).1
          (applyOp (Op.opPushRight 5) (fromList [1, 2, 3]).1 (fromList [1, 2, 3]).2).2) :=
  ⟨⟨[(0, 1), (1, 2), (2, 3)], by decide⟩,
    c2_structural_ring_invariant (Op.opPushRight 5) _ _
      ⟨[(0, 1), (1, 2), (2, 3)], by decide⟩⟩

/-- C3: draining a valid list of length `n` by `n` calls of
`pop_move_right` yields exactly the `n` ring values in clockwise order
starting at the element under the cursor, leaves the list empty
(`len = 0`, no cursor), and one further `pop_move_right` returns `none`
and changes nothing. -/
theorem c3_drain_completeness (h : Heap α) (l : CyclicList α)
    (xs : List (Nat × α)) (hr : Ring h l xs) :
    (drainN h l l.len).1 = List.map some (elems xs) ∧
      (drainN h l l.len).2.2.len = 0 ∧
      (drainN h l l.len).2.2.nodes = none ∧
      popMoveRight (drainN h l l.len).2.1 (drainN h l l.len).2.2 =
        ((drainN h l l.len).2.1, (drainN h l l.len).2.2, none) := by
  have hlen : l.len = xs.length := hr.2.1
  rw [hlen]
  obtain ⟨h1, h2⟩ := ring_drainN hr
  have hnew := ring_nil_elim h2
  refine ⟨?_, ?_, ?_, ?_⟩
  · rw [h1]
    simp [elems]
  · rw [hnew]; rfl
  · rw [hnew]; rfl
  · rw [hnew]; rfl

/-- Witness for C3 at the list built from `[1, 2]`. -/
theorem c3_drain_completeness_witness :
    Ring (fromList [1, 2]).1 ((fromList [1, 2] : Heap Nat × CyclicList Nat)).2
        [(0, 1), (1, 2)] ∧
      ((drainN (fromList [1, 2]).1 (fromList [1, 2]).2 (fromList [1, 2]).2.len).1 =
          List.map some (elems [(0, 1), (1, 2)]) ∧
        (drainN (fromList [1, 2]).1 (fromList [1, 2]).2 (fromList [1, 2]).2.len).2.2.len = 0 ∧
        (drainN (fromList [1, 2]).1 (fromList [1, 2]).2 (fromList [1, 2]).2.len).2.2.nodes = none ∧
        popMoveRight (drainN (fromList [1, 2]).1 (fromList [1, 2]).2 (fromList [1, 2]).2.len).2.1
            (drainN (fromList [1, 2]).1 (fromList [1, 2]).2 (fromList [1, 2]).2.len).2.2 =
          ((drainN (fromList [1, 2]).1 (fromList [1, 2]).2 (fromList [1, 2]).2.len).2.1,
            (drainN (fromList [1, 2]).1 (fromList [1, 2]).2 (fromList [1, 2]).2.len).2.2, none)) :=
  ⟨by decide, c3_drain_completeness _ _ [(0, 1), (1, 2)] (by decide)⟩

/-- C4: building a `CyclicList` from any non-empty sequence produces a ring
whose clockwise order equals the input order, with the cursor on the first
input element and `left()` yielding the last one. -/
theorem c4_construction_order (p : List α) (hne : p ≠ []) :
    current (fromList p).1 (fromList p).2 = p.head? ∧
      leftVal (fromList p).1 (fromList p).2 = p.getLast? ∧
      ∃ xs : List (Nat × α), Ring (fromList p).1 (fromList p).2 xs ∧
        elems xs = p := by
  obtain ⟨xs, hr, he⟩ := fromList_ring p hne
  refine ⟨?_, ?_, xs, hr, he⟩
  · rw [ring_current hr, he]
  · rw [ring_leftVal hr, he]

/-- Witness for C4 at the documented example `[0, 1, 2, 3, 4, 5]`. -/
theorem c4_construction_order_witness :
    (([0, 1, 2, 3, 4, 5] : List Nat) ≠ []) ∧
      (current (fromList [0, 1, 2, 3, 4, 5]).1
          ((fromList [0, 1, 2, 3, 4, 5] : Heap Nat × CyclicList Nat)).2 =
            ([0, 1, 2, 3, 4, 5] : List Nat).head? ∧
        leftVal (fromList [0, 1, 2, 3, 4, 5]).1 (fromList [0, 1, 2, 3, 4, 5]).2 =
            ([0, 1, 2, 3, 4, 5] : List Nat).getLast? ∧
        ∃ xs : List (Nat × Nat),
          Ring (fromList [0, 1, 2, 3, 4, 5]).1 (fromList [0, 1, 2, 3, 4, 5]).2 xs ∧
            elems xs = [0, 1, 2, 3, 4, 5]) :=
  ⟨by decide, c4_construction_order [0, 1, 2, 3, 4, 5] (by decide)⟩

/-- C5: on a freshly constructed empty list every query returns `none` and
every mutating operation is total: the moves and pops are no-ops returning
`none`, and the pushes succeed, producing a valid one-element ring.  No
operation has any failure mode other than returning the absent value. -/
theorem c5_empty_safety (h : Heap α) (el : α) (n : Nat) :
    isEmpty (CyclicList.new : CyclicList α) = true ∧
      (CyclicList.new : CyclicList α).len = 0 ∧
      current h (CyclicList.new : CyclicList α) = none ∧
      rightVal h (CyclicList.new : CyclicList α) = none ∧
      leftVal h (CyclicList.new : CyclicList α) = none ∧
      moveRight h (CyclicList.new : CyclicList α) = CyclicList.new ∧
      moveLeft h (CyclicList.new : CyclicList α) = CyclicList.new ∧
      moveRightN h (CyclicList.new : CyclicList α) n = CyclicList.new ∧
      moveLeftN h (CyclicList.new : CyclicList α) n = CyclicList.new ∧
      intoRight h (CyclicList.new : CyclicList α) = CyclicList.new ∧
      intoLeft h (CyclicList.new : CyclicList α) = CyclicList.new ∧
      intoRightN h (CyclicList.new : CyclicList α) n = CyclicList.new ∧
      intoLeftN h (CyclicList.new : CyclicList α) n = CyclicList.new ∧
      popRight h (CyclicList.new : CyclicList α) = (h, CyclicList.new, none) ∧
      popLeft h (CyclicList.new : CyclicList α) = (h, CyclicList.new, none) ∧
      popMoveRight h (CyclicList.new : CyclicList α) = (h, CyclicList.new, none) ∧
      popMoveLeft h (CyclicList.new : CyclicList α) = (h, CyclicList.new, none) ∧
      currentMutSet h (CyclicList.new : CyclicList α) el = h ∧
      (pushRight h (CyclicList.new : CyclicList α) el).2.len = 1 ∧
      Valid (pushRight h (CyclicList.new : CyclicList α) el).1
        (pushRight h CyclicList.new el).2 ∧
      Valid (pushLeft h (CyclicList.new : CyclicList α) el).1
        (pushLeft h CyclicList.new el).2 := by
  refine ⟨rfl, rfl, rfl, rfl, rfl, rfl, rfl, moveRightN_new h n, moveLeftN_new h n,
    rfl, rfl, ?_, ?_, rfl, rfl, rfl, rfl, rfl, rfl, ?_, ?_⟩
  · rw [intoRightN_eq_moveRightN]; exact moveRightN_new h n
  · rw [intoLeftN_eq_moveLeftN]; exact moveLeftN_new h n
  · exact valid_pushRight ⟨[], ring_new h⟩ el
  · exact valid_pushLeft ⟨[], ring_new h⟩ el

/-- C6: the claim demands that cloning produce an independent ring of newly
allocated nodes.  `CyclicList` derives `Clone`, which clones the
`Option<NonNull<..>>` field as a pointer value: the clone is the very same
header, referring to the same nodes, and writing through the clone's
`current_mut()` changes the original list's `current()` (here from `1`
to `2`). -/
theorem c6_derived_clone_is_aliased :
    clone ((fromList [(1 : Nat)]).2) = (fromList [(1 : Nat)]).2 ∧
      current (currentMutSet (fromList [(1 : Nat)]).1
          (clone (fromList [(1 : Nat)]).2) 2) (fromList [(1 : Nat)]).2 = some 2 :=
  ⟨rfl, by decide⟩

/-- C7: the borrowing iterator over the two-element list `[10, 20]` yields
`20` then `10` then `none` (exactly `len` items, starting clockwise of the
cursor) — but after the first `next()` its `size_hint`/`len` still reports
`(2, some 2)` although only one element remains: the exact-size reporting
the claim requires is violated because `size_hint` ignores `consumed`. -/
theorem c7_iter_size_hint_ignores_consumed :
    (iterNext (fromList [(10 : Nat), 20]).1
        (CyclicList.iter (fromList [(10 : Nat), 20]).2)).2 = some 20 ∧
      iterSizeHint (iterNext (fromList [(10 : Nat), 20]).1
        (CyclicList.iter (fromList [(10 : Nat), 20]).2)).1 = (2, some 2) ∧
      (iterNext (fromList [(10 : Nat), 20]).1
        (iterNext (fromList [(10 : Nat), 20]).1
          (CyclicList.iter (fromList [(10 : Nat), 20]).2)).1).2 = some 10 ∧
      (iterNext (fromList [(10 : Nat), 20]).1
        (iterNext (fromList [(10 : Nat), 20]).1
          (iterNext (fromList [(10 : Nat), 20]).1
            (CyclicList.iter (fromList [(10 : Nat), 20]).2)).1).1).2 = none := by
  decide

/-- C8: on every valid list (empty included), `push_right v` immediately
followed by `pop_right` returns `v` and restores the list header and all
observable values: same length, same current element, same left and right
neighbour values. -/
theorem c8_push_pop_roundtrip (h : Heap α) (l : CyclicList α) (v : α)
    (hv : Valid h l) :
    (popRight (pushRight h l v).1 (pushRight h l v).2).2.2 = some v ∧
      (popRight (pushRight h l v).1 (pushRight h l v).2).2.1 = l ∧
      (popRight (pushRight h l v).1 (pushRight h l v).2).2.1.len = l.len ∧
      current (popRight (pushRight h l v).1 (pushRight h l v).2).1
          (popRight (pushRight h l v).1 (pushRight h l v).2).2.1 = current h l ∧
      leftVal (popRight (pushRight h l v).1 (pushRight h l v).2).1
          (popRight (pushRight h l v).1 (pushRight h l v).2).2.1 = leftVal h l ∧
      rightVal (popRight (pushRight h l v).1 (pushRight h l v).2).1
          (popRight (pushRight h l v).1 (pushRight h l v).2).2.1 = rightVal h l := by
  obtain ⟨xs, hr⟩ := hv
  cases xs with
  | nil =>
      have hp := ring_pushRight_nil hr v
      obtain ⟨hval, hlist, -⟩ := ring_popRight_single hp
      have hl := ring_nil_elim hr
      refine ⟨hval, ?_, ?_, ?_, ?_, ?_⟩ <;> rw [hlist, hl] <;> rfl
  | cons x rest =>
      have hp := ring_pushRight_cons hr v
      obtain ⟨hval, hring⟩ := ring_popRight_cons hp
      have hleq : (popRight (pushRight h l v).1 (pushRight h l v).2).2.1 = l :=
        ring_eq_of_ring hring hr
      refine ⟨hval, hleq, by rw [hleq], ?_, ?_, ?_⟩
      · rw [ring_current hring, ring_current hr]
      · rw [ring_leftVal hring, ring_leftVal hr]
      · rw [ring_rightVal hring, ring_rightVal hr]

/-- Witness for C8 at the list built from `[7, 8]` with `v = 9`. -/
theorem c8_push_pop_roundtrip_witness :
    Valid (fromList [7, 8]).1 ((fromList [7, 8] : Heap Nat × CyclicList Nat)).2 ∧
      ((popRight (pushRight (fromList [7, 8]).1 (fromList [7, 8]).2 9).1
          (pushRight (fromList [7, 8]).1 (fromList [7, 8]).2 9).2).2.2 = some 9 ∧
        (popRight (pushRight (fromList [7, 8]).1 (fromList [7, 8]).2 9).1
          (pushRight (fromList [7, 8]).1 (fromList [7, 8]).2 9).2).2.1 = (fromList [7, 8]).2 ∧
        (popRight (pushRight (fromList [7, 8]).1 (fromList [7, 8]).2 9).1
          (pushRight (fromList [7, 8]).1 (fromList [7, 8]).2 9).2).2.1.len = (fromList [7, 8]).2.len ∧
        current (popRight (pushRight (fromList [7, 8]).1 (fromList [7, 8]).2 9).1
            (pushRight (fromList [7, 8]).1 (fromList [7, 8]).2 9).2).1
          (popRight (pushRight (fromList [7, 8]).1 (fromList [7, 8]).2 9).1
            (pushRight (fromList [7, 8]).1 (fromList [7, 8]).2 9).2).2.1 =
          current (fromList [7, 8]).1 (fromList [7, 8]).2 ∧
        leftVal (popRight (pushRight (fromList [7, 8]).1 (fromList [7, 8]).2 9).1
            (pushRight (fromList [7, 8]).1 (fromList [7, 8]).2 9).2).1
          (popRight (pushRight (fromList [7, 8]).1 (fromList [7, 8]).2 9).1
            (pushRight (fromList [7, 8]).1 (fromList [7, 8]).2 9).2).2.1 =
          leftVal (fromList [7, 8]).1 (fromList [7, 8]).2 ∧
        rightVal (popRight (pushRight (fromList [7, 8]).1 (fromList [7, 8]).2 9).1
            (pushRight (fromList [7, 8]).1 (fromList [7, 8]).2 9).2).1
          (popRight (pushRight (fromList [7, 8]).1 (fromList [7, 8]).2 9).1
            (pushRight (fromList [7, 8]).1 (fromList [7, 8]).2 9).2).2.1 =
          rightVal (fromList [7, 8]).1 (fromList [7, 8]).2) :=
  ⟨⟨[(0, 7), (1, 8)], by decide⟩,
    c8_push_pop_roundtrip _ _ 9 ⟨[(0, 7), (1, 8)], by decide⟩⟩

/-- C9: for a list built from any non-empty sequence of length `n`,
`move_right` applied `n` times returns the cursor to the original node, and
so does `move_left` applied `n` times. -/
theorem c9_ring_closure (p : List α) (hne : p ≠ []) :
    moveRightN (fromList p).1 (fromList p).2 p.length = (fromList p).2 ∧
      moveLeftN (fromList p).1 (fromList p).2 p.length = (fromList p).2 := by
  obtain ⟨xs, hr, he⟩ := fromList_ring p hne
  have hlen : xs.length = p.length := by
    rw [← he]
    simp [elems]
  constructor
  · have h1 := ring_moveRightN hr p.length
    have hrot : xs.rotate p.length = xs := by
      rw [← hlen, List.rotate_length]
    rw [hrot] at h1
    exact ring_eq_of_ring h1 hr
  · have h1 := ring_moveLeftN hr p.length
    have hrot : xs.rotate (p.length * (xs.length - 1)) = xs := by
      rw [← hlen, ← List.rotate_mod, Nat.mul_mod_right, List.rotate_zero]
    rw [hrot] at h1
    exact ring_eq_of_ring h1 hr

/-- Witness for C9 at `[0, 1, 2]`. -/
theorem c9_ring_closure_witness :
    (([0, 1, 2] : List Nat) ≠ []) ∧
      (moveRightN (fromList [0, 1, 2]).1
          ((fromList [0, 1, 2] : Heap Nat × CyclicList Nat)).2 3 = (fromList [0, 1, 2]).2 ∧
        moveLeftN (fromList [0, 1, 2]).1 (fromList [0, 1, 2]).2 3 = (fromList [0, 1, 2]).2) :=
  ⟨by decide, c9_ring_closure [0, 1, 2] (by decide)⟩

/-- C10: constructing from the empty sequence yields the empty list
(`len = 0`, absent cursor) and the trailing corrective `into_right` of the
construction algorithm is a no-op on any empty list. -/
theorem c10_empty_construction :
    fromList ([] : List α) = ([], CyclicList.new) ∧
      (fromList ([] : List α)).2.len = 0 ∧
      current (fromList ([] : List α)).1 (fromList ([] : List α)).2 = none ∧
      ∀ h : Heap α, intoRight h CyclicList.new = CyclicList.new :=
  ⟨rfl, rfl, rfl, fun _ => rfl⟩

end AocCyclic
